import Mathlib

/-!
# golidate: tag-driven validation of struct fields

A shallow embedding of `golidate.go` and of the parts of the Go standard
library it calls (`strings.Cut`, `strings.Split`, `strconv.Atoi`,
`utf8.RuneCountInString`, and the observations of `reflect.Value` that
`Validate` makes), followed by theorems about the package's behaviour.

Conventions.
* A Go `string` is a sequence of bytes, not necessarily valid UTF-8.
* A run-time panic is modelled as `Except.error`; a function that cannot
  panic is a plain function.
* Go's `int` is the 64-bit one (`strconv.IntSize = 64`).
-/

set_option autoImplicit false

namespace golidate

/-! ## Go strings -/

/-- One byte of a Go string. -/
abbrev Byte := Fin 256

/-- Go's `string`: an immutable sequence of bytes. -/
abbrev GoString := List Byte

/-- UTF-8 encoding of one code point, as the Go compiler stores the characters
of a string literal. -/
def encodeRune (c : Char) : GoString :=
  let r := c.toNat
  if r < 0x80 then [Fin.ofNat r]
  else if r < 0x800 then [Fin.ofNat (0xC0 + r / 64), Fin.ofNat (0x80 + r % 64)]
  else if r < 0x10000 then
    [Fin.ofNat (0xE0 + r / 4096), Fin.ofNat (0x80 + r / 64 % 64), Fin.ofNat (0x80 + r % 64)]
  else
    [Fin.ofNat (0xF0 + r / 262144), Fin.ofNat (0x80 + r / 4096 % 64),
     Fin.ofNat (0x80 + r / 64 % 64), Fin.ofNat (0x80 + r % 64)]

/-- The Go string denoted by a string literal of the source. -/
def lit (s : String) : GoString := s.toList.flatMap encodeRune

/-- The byte `':'`, separator of rule name and arguments. -/
def colon : Byte := 58

/-- The byte `','`, separator of arguments. -/
def comma : Byte := 44

/-! ## Standard library: `strings` -/

/-- Go's `strings.IndexByte`: index of the first occurrence of `c` in `s`,
`none` standing for `-1`. -/
def IndexByte : GoString → Byte → Option Nat
  | [], _ => none
  | b :: bs, c => if b = c then some 0 else (IndexByte bs c).map (· + 1)

/-- Go's `strings.Cut(s, sep)` for a one-byte separator: slices `s` around the
first occurrence of `sep`; without one it returns `s, "", false`. -/
def Cut (s : GoString) (sep : Byte) : GoString × GoString × Bool :=
  match IndexByte s sep with
  | some i => (s.take i, s.drop (i + 1), true)
  | none => (s, [], false)

/-- Go's `strings.Count(s, sep)` for a one-byte separator. -/
def Count (s : GoString) (sep : Byte) : Nat := s.count sep

/-- The loop of `strings.genSplit`: at most `n` times, cut off the text before
the next separator; what is left is the last piece. -/
def genSplitLoop : Nat → GoString → Byte → List GoString
  | 0, s, _ => [s]
  | n + 1, s, sep =>
    match IndexByte s sep with
    | none => [s]
    | some m => s.take m :: genSplitLoop n (s.drop (m + 1)) sep

/-- Go's `strings.Split(s, sep)` for a one-byte separator: `Count(s, sep) + 1`
pieces. -/
def Split (s : GoString) (sep : Byte) : List GoString :=
  genSplitLoop (Count s sep) s sep

/-! ## Standard library: `strconv` -/

/-- Go's `strconv.IntSize` on a 64-bit target. -/
def intSize : Nat := 64

/-- The digit loop of `strconv.Atoi` / `ParseUint` in base 10: every byte must
be an ASCII digit. The value is kept unbounded here; the range check is made by
`Atoi`. -/
def parseDecimal : Nat → GoString → Option Nat
  | n, [] => some n
  | n, ch :: rest =>
    if 48 ≤ ch.val ∧ ch.val ≤ 57 then parseDecimal (n * 10 + (ch.val - 48)) rest else none

/-- Go's `strconv.Atoi`: an optional sign, then one or more decimal digits, the
value within the range of `int`. `none` stands for a non-nil `error` (syntax or
range). -/
def Atoi (s : GoString) : Option Int :=
  match s with
  | [] => none
  | c :: rest =>
    let neg := decide (c.val = 45)
    let ds := if c.val = 45 ∨ c.val = 43 then rest else s
    if ds = [] then none
    else
      match parseDecimal 0 ds with
      | none => none
      | some un =>
        if neg then (if un ≤ 2 ^ (intSize - 1) then some (-(un : Int)) else none)
        else (if un < 2 ^ (intSize - 1) then some (un : Int) else none)

/-- The loop of `strconv.FormatUint` in base 10: digits are produced from the
least significant one and put in front of `acc`. -/
def formatLoop : Nat → Nat → GoString → GoString
  | 0, _, acc => acc
  | fuel + 1, n, acc =>
    let d : Byte := Fin.ofNat (48 + n % 10)
    if n / 10 = 0 then d :: acc else formatLoop fuel (n / 10) (d :: acc)

/-- The decimal rendering of a natural number (Go's `strconv.Itoa` on a
non-negative value): no sign, no leading zeros. -/
def Itoa (n : Nat) : GoString := formatLoop (n + 1) n []

/-! ## Standard library: `unicode/utf8` -/

/-- The table `first` of `unicode/utf8` for a leading byte `≥ 0x80`: the size of
the sequence it starts and the accepted range of the second byte; `none` is the
entry `xx` (invalid leading byte). -/
def first (c : Nat) : Option (Nat × Nat × Nat) :=
  if c < 0xC2 then none
  else if c < 0xE0 then some (2, 0x80, 0xBF)
  else if c = 0xE0 then some (3, 0xA0, 0xBF)
  else if c < 0xED then some (3, 0x80, 0xBF)
  else if c = 0xED then some (3, 0x80, 0x9F)
  else if c < 0xF0 then some (3, 0x80, 0xBF)
  else if c = 0xF0 then some (4, 0x90, 0xBF)
  else if c < 0xF4 then some (4, 0x80, 0xBF)
  else if c = 0xF4 then some (4, 0x80, 0x8F)
  else none

/-- Whether a byte is outside `[lo, hi]`. -/
def outside (c : Byte) (lo hi : Nat) : Bool := decide (c.val < lo ∨ hi < c.val)

/-- The number of bytes one iteration of `utf8.RuneCountInString` advances over
at the start of a non-empty `s`: the size of a well-formed sequence, 1 for an
ASCII byte and for an invalid or truncated sequence. -/
def runeWidth (s : GoString) : Nat :=
  match s with
  | [] => 1
  | c :: rest =>
    if c.val < 0x80 then 1
    else
      match first c.val with
      | none => 1
      | some (size, lo, hi) =>
        if s.length < size then 1
        else
          match rest with
          | [] => 1
          | c1 :: rest1 =>
            if outside c1 lo hi then 1
            else if size = 2 then 2
            else
              match rest1 with
              | [] => 1
              | c2 :: rest2 =>
                if outside c2 0x80 0xBF then 1
                else if size = 3 then 3
                else
                  match rest2 with
                  | [] => 1
                  | c3 :: _ => if outside c3 0x80 0xBF then 1 else 4

/-- The loop of `utf8.RuneCountInString`: `n` counts the iterations until the
text is used up. Each iteration consumes a byte or more, so a fuel of
`len(s)` is enough. -/
def runeCountLoop : Nat → GoString → Nat → Nat
  | 0, _, n => n
  | fuel + 1, s, n =>
    if s = [] then n else runeCountLoop fuel (s.drop (runeWidth s)) (n + 1)

/-- Go's `utf8.RuneCountInString`: the number of runes in `s`, an erroneous or
short encoding counting as one rune of width one byte. -/
def RuneCountInString (s : GoString) : Nat := runeCountLoop s.length s 0

/-! ## Standard library: `reflect` -/

/-- Go's `reflect.Kind`. -/
inductive Kind where
  | Invalid | Bool | Int | Int8 | Int16 | Int32 | Int64
  | Uint | Uint8 | Uint16 | Uint32 | Uint64 | Uintptr
  | Float32 | Float64 | Complex64 | Complex128
  | Array | Chan | Func | Interface | Map | Pointer | Slice
  | String | Struct | UnsafePointer
  deriving DecidableEq, Repr

/-- What `Validate` reads of a `reflect.StructField`: `IsExported()` and
`Tag.Lookup("validate")` (`none` when the tag has no such key). -/
structure StructField where
  IsExported : Bool
  validateTag : Option GoString

/-- What `Validate` can observe of a `reflect.Value`. The kinds `String`,
`Struct`, `Pointer` and `Invalid` have a constructor of their own; `other`
carries every remaining kind. -/
inductive Value where
  /-- The zero `reflect.Value`, which `reflect.ValueOf(nil)` returns. -/
  | invalid : Value
  /-- A value of a string type. -/
  | string (s : GoString) : Value
  /-- A value of a struct type, its fields in declaration order. -/
  | struct (fields : List (StructField × Value)) : Value
  /-- A pointer; `none` is the nil pointer. -/
  | pointer (elem : Option Value) : Value
  /-- A value of any other kind. -/
  | other (k : Kind)
      (h : k ≠ Kind.Invalid ∧ k ≠ Kind.String ∧ k ≠ Kind.Struct ∧ k ≠ Kind.Pointer) : Value

namespace Value

/-- Go's `reflect.Value.Kind`. -/
def Kind : Value → golidate.Kind
  | invalid => golidate.Kind.Invalid
  | string _ => golidate.Kind.String
  | struct _ => golidate.Kind.Struct
  | pointer _ => golidate.Kind.Pointer
  | other k _ => k

/-- Go's `reflect.Value.String`: the underlying text of a value of kind
`String`. For another kind Go returns a placeholder naming the type, which the
package never reads. -/
def String : Value → GoString
  | string s => s
  | _ => []

/-- The fields of a struct value: `Type().Field(i)` paired with `Field(i)` for
`i` from 0 to `NumField() - 1`. -/
def Fields : Value → List (StructField × Value)
  | struct fields => fields
  | _ => []

end Value

/-! ## The package `golidate` -/

/-- A run-time panic of the Go program. -/
inductive Panic where
  /-- Use of a nil interface or a nil function value. -/
  | nilDereference
  deriving DecidableEq, Repr

/-- The error values made with `errors.New`: the three exported variables of the
package, each one value with an identity of its own, and any other such error,
given by its text. -/
inductive errorString where
  | ErrNotStruct
  | ErrInvalidValidatorSyntax
  | ErrValidateForUnexportedFields
  | New (text : GoString)
  deriving DecidableEq, Repr

export errorString (ErrNotStruct ErrInvalidValidatorSyntax ErrValidateForUnexportedFields)

/-- The method `Error` of an error made with `errors.New`: its text. -/
def errorString.Error : errorString → GoString
  | ErrNotStruct => lit "wrong argument given, should be a struct"
  | ErrInvalidValidatorSyntax => lit "invalid validator syntax"
  | ErrValidateForUnexportedFields => lit "validation for unexported field is not allowed"
  | New text => text

/-- The struct `ValidationError`; `Err = none` is the nil error. The package
only ever stores errors made with `errors.New` in it. -/
structure ValidationError where
  Err : Option errorString
  deriving DecidableEq, Repr

/-- The slice type `ValidationErrors`. -/
abbrev ValidationErrors := List ValidationError

/-- A non-nil value of the interface `error` as `Validate` returns it: an error
made with `errors.New` or a `ValidationErrors`. -/
inductive error where
  | errorString (e : golidate.errorString)
  | ValidationErrors (v : golidate.ValidationErrors)
  deriving DecidableEq, Repr

/-- The expression `err.Err.Error()`: the message of an entry; a nil `Err`
panics. -/
def ValidationError.message (e : ValidationError) : Except Panic GoString :=
  match e.Err with
  | none => Except.error Panic.nilDereference
  | some err => Except.ok err.Error

/-- The loop of `ValidationErrors.Error`: `res += err.Err.Error() + "\n"` for
every entry in turn. -/
def ValidationErrors.ErrorLoop : ValidationErrors → GoString → Except Panic GoString
  | [], res => Except.ok res
  | err :: rest, res =>
    match err.message with
    | Except.error p => Except.error p
    | Except.ok msg => ValidationErrors.ErrorLoop rest (res ++ (msg ++ lit "\n"))

/-- The method `ValidationErrors.Error`. -/
def ValidationErrors.Error (v : ValidationErrors) : Except Panic GoString :=
  match v with
  | [e] => e.message
  | _ => ValidationErrors.ErrorLoop v (lit "")

/-- The function `splitArgs`: the rule name, the arguments and the error. The
nil slice left in `args` when the separator is missing and the empty slice
`[]string{}` are both the empty list: the package only takes their length. -/
def splitArgs (str : GoString) : GoString × List GoString × ValidationError :=
  match Cut str colon with
  | (v, unsplitArgs, found) =>
    if !found then (v, [], ⟨some ErrInvalidValidatorSyntax⟩)
    else if unsplitArgs = lit "" then (v, [], ⟨none⟩)
    else (v, Split unsplitArgs comma, ⟨none⟩)

/-- The function type `validator`. -/
abbrev validator := Value → List GoString → ValidationError

/-- The function type `intArgValidator`. -/
abbrev intArgValidator := Value → Int → ValidationError

/-- The function `fromIntArgValidator`. -/
def fromIntArgValidator (val : intArgValidator) : validator :=
  fun v args =>
    match args with
    | [arg0] =>
      match Atoi arg0 with
      | none => ⟨some ErrInvalidValidatorSyntax⟩
      | some arg => val v arg
    | _ => ⟨some ErrInvalidValidatorSyntax⟩

/-- The function literal that `getValidator` registers under "non-empty". -/
def nonEmpty : intArgValidator :=
  fun v arg =>
    if arg < 1 ∨ v.Kind ≠ Kind.String then ⟨some ErrInvalidValidatorSyntax⟩
    else
      let chars : Int := RuneCountInString v.String
      if chars = 0 ∨ chars > arg then ⟨some (errorString.New (lit "validator non-empty"))⟩
      else ⟨none⟩

/-- The function `getValidator`; the validator is nil (`none`) for an unknown
name. -/
def getValidator (valName : GoString) : Option validator × ValidationError :=
  if valName = lit "non-empty" then (some (fromIntArgValidator nonEmpty), ⟨none⟩)
  else (none, ⟨some ErrInvalidValidatorSyntax⟩)

/-- The body of the loop of `Validate` for the field `(typeField, field)`: the
list of errors after the iteration. -/
def Validate.body (errs : ValidationErrors) (typeField : StructField) (field : Value) :
    Except Panic ValidationErrors :=
  match typeField.validateTag with
  | none => Except.ok errs
  | some valStr =>
    if !typeField.IsExported then
      Except.ok (errs ++ [⟨some ErrValidateForUnexportedFields⟩])
    else
      match splitArgs valStr with
      | (valName, args, err) =>
        if err.Err ≠ none then Except.ok (errs ++ [err])
        else
          match getValidator valName with
          | (validator, err) =>
            if err.Err ≠ none then Except.ok (errs ++ [err])
            else
              match validator with
              | none => Except.error Panic.nilDereference
              | some validator =>
                let err := validator field args
                if err.Err ≠ none then Except.ok (errs ++ [err]) else Except.ok errs

/-- The loop of `Validate` over the fields that are still to be visited. -/
def Validate.loop : List (StructField × Value) → ValidationErrors → Except Panic ValidationErrors
  | [], errs => Except.ok errs
  | (typeField, field) :: rest, errs =>
    match Validate.body errs typeField field with
    | Except.error p => Except.error p
    | Except.ok errs => Validate.loop rest errs

/-- The function `Validate`, on the `reflect.Value` of its argument. The result is
the returned `error`, `none` being nil. -/
def Validate (v : Value) : Except Panic (Option error) :=
  let val := v
  if val.Kind ≠ Kind.Struct then Except.ok (some (error.errorString ErrNotStruct))
  else
    match Validate.loop val.Fields [] with
    | Except.error p => Except.error p
    | Except.ok errs =>
      if errs.length > 0 then Except.ok (some (error.ValidationErrors errs))
      else Except.ok none

/-! ## Notions used to state the properties -/

deriving instance DecidableEq for Except

/-- The errors that one field contributes: what the loop body of `Validate`
appends when it starts from the empty list. -/
def fieldFailures (f : StructField × Value) : ValidationErrors :=
  match Validate.body [] f.1 f.2 with
  | Except.ok errs => errs
  | Except.error _ => []

/-- The entries of the `error` that `Validate` returned when it is a
`ValidationErrors`; nothing for nil, for another error and for a panic. -/
def returnedList (r : Except Panic (Option error)) : ValidationErrors :=
  match r with
  | Except.ok (some (error.ValidationErrors v)) => v
  | _ => []

/-- Whether the rule that the specification `valStr` declares passes on the value
`field`: the specification parses, its name is registered and the registered
validator returns no error. -/
def rulePasses (valStr : GoString) (field : Value) : Bool :=
  match splitArgs valStr with
  | (valName, args, err) =>
    err.Err.isNone &&
      match getValidator valName with
      | (some val, err) => err.Err.isNone && (val field args).Err.isNone
      | (none, _) => false

/-- The integer that a text denotes in base 10, without a bound: an optional
sign, then one or more ASCII digits. -/
def integerValue (s : GoString) : Option Int :=
  match s with
  | [] => none
  | c :: rest =>
    if c.val = 45 then
      (if rest = [] then none else (parseDecimal 0 rest).map (fun n => -(n : Int)))
    else if c.val = 43 then
      (if rest = [] then none else (parseDecimal 0 rest).map (fun n => (n : Int)))
    else (parseDecimal 0 s).map (fun n => (n : Int))

/-! ## The loop of `Validate` -/

theorem getValidator_nonEmpty :
    getValidator (lit "non-empty") = (some (fromIntArgValidator nonEmpty), ⟨none⟩) := by
  simp [getValidator]

theorem getValidator_unknown (valName : GoString) (h : valName ≠ lit "non-empty") :
    getValidator valName = (none, ⟨some ErrInvalidValidatorSyntax⟩) := by
  simp [getValidator, h]

/-- The loop body never panics: it appends to `errs` what it produces from the
empty list, which is at most one entry, with a cause. -/
theorem body_append (typeField : StructField) (field : Value) :
    ∃ e : ValidationErrors, e.length ≤ 1 ∧ (∀ x ∈ e, x.Err ≠ none) ∧
      ∀ errs : ValidationErrors, Validate.body errs typeField field = Except.ok (errs ++ e) := by
  unfold Validate.body
  cases htag : typeField.validateTag with
  | none => exact ⟨[], by simp, by simp, by simp⟩
  | some valStr =>
    cases hexp : typeField.IsExported with
    | false => exact ⟨[⟨some ErrValidateForUnexportedFields⟩], by simp, by simp, by simp⟩
    | true =>
      rcases hsplit : splitArgs valStr with ⟨valName, args, err⟩
      by_cases herr : err.Err = none
      · by_cases hname : valName = lit "non-empty"
        · subst hname
          by_cases hv : (fromIntArgValidator nonEmpty field args).Err = none
          · exact ⟨[], by simp, by simp, by simp [hsplit, herr, getValidator_nonEmpty, hv]⟩
          · exact ⟨[fromIntArgValidator nonEmpty field args], by simp, by simpa using hv,
              by simp [hsplit, herr, getValidator_nonEmpty, hv]⟩
        · exact ⟨[⟨some ErrInvalidValidatorSyntax⟩], by simp, by simp,
            by simp [hsplit, herr, getValidator_unknown _ hname]⟩
      · exact ⟨[err], by simp, by simpa using herr, by simp [hsplit, herr]⟩

theorem body_eq (errs : ValidationErrors) (f : StructField × Value) :
    Validate.body errs f.1 f.2 = Except.ok (errs ++ fieldFailures f) := by
  obtain ⟨e, -, -, h⟩ := body_append f.1 f.2
  have h0 : fieldFailures f = e := by simp [fieldFailures, h []]
  rw [h0, h errs]

theorem fieldFailures_length (f : StructField × Value) : (fieldFailures f).length ≤ 1 := by
  obtain ⟨e, hlen, -, h⟩ := body_append f.1 f.2
  have h0 : fieldFailures f = e := by simp [fieldFailures, h []]
  rw [h0]; exact hlen

theorem fieldFailures_cause (f : StructField × Value) :
    ∀ x ∈ fieldFailures f, x.Err ≠ none := by
  obtain ⟨e, -, hc, h⟩ := body_append f.1 f.2
  have h0 : fieldFailures f = e := by simp [fieldFailures, h []]
  rw [h0]; exact hc

theorem loop_eq (fields : List (StructField × Value)) (errs : ValidationErrors) :
    Validate.loop fields errs = Except.ok (errs ++ fields.flatMap fieldFailures) := by
  induction fields generalizing errs with
  | nil => simp [Validate.loop]
  | cons f rest ih =>
    obtain ⟨typeField, field⟩ := f
    have hb := body_eq errs (typeField, field)
    simp only at hb
    simp [Validate.loop, hb, ih, List.flatMap_cons, List.append_assoc]

theorem Validate_struct (fields : List (StructField × Value)) :
    Validate (Value.struct fields) =
      Except.ok (if fields.flatMap fieldFailures = [] then none
        else some (error.ValidationErrors (fields.flatMap fieldFailures))) := by
  simp only [Validate, Value.Kind, Value.Fields, loop_eq, List.nil_append]
  by_cases h : fields.flatMap fieldFailures = []
  · simp [h]
  · have hpos : 0 < (fields.flatMap fieldFailures).length := List.length_pos.mpr h
    simp only [gt_iff_lt, hpos, h, ↓reduceIte, ne_eq, not_true_eq_false]

theorem Validate_notStruct (v : Value) (h : v.Kind ≠ Kind.Struct) :
    Validate v = Except.ok (some (error.errorString ErrNotStruct)) := by
  simp [Validate, h]

theorem returnedList_struct (fields : List (StructField × Value)) :
    returnedList (Validate (Value.struct fields)) = fields.flatMap fieldFailures := by
  rw [Validate_struct]
  by_cases h : fields.flatMap fieldFailures = []
  · simp [h, returnedList]
  · simp [h, returnedList]

theorem returnedList_single (f : StructField × Value) :
    returnedList (Validate (Value.struct [f])) = fieldFailures f := by
  rw [returnedList_struct]; simp

theorem Kind_eq_Struct (v : Value) (h : v.Kind = Kind.Struct) : v = Value.struct v.Fields := by
  cases v with
  | struct fields => rfl
  | invalid => simp [Value.Kind] at h
  | string s => simp [Value.Kind] at h
  | pointer e => simp [Value.Kind] at h
  | other k hk => simp [Value.Kind] at h; exact absurd h hk.2.2.1

/-! ## What one field contributes -/

theorem fieldFailures_untagged (f : StructField × Value) (h : f.1.validateTag = none) :
    fieldFailures f = [] := by
  simp [fieldFailures, Validate.body, h]

theorem fieldFailures_unexported (f : StructField × Value) (valStr : GoString)
    (h : f.1.validateTag = some valStr) (hexp : f.1.IsExported = false) :
    fieldFailures f = [⟨some ErrValidateForUnexportedFields⟩] := by
  simp [fieldFailures, Validate.body, h, hexp]

theorem fieldFailures_exported (f : StructField × Value) (valStr : GoString)
    (h : f.1.validateTag = some valStr) (hexp : f.1.IsExported = true) :
    fieldFailures f =
      if (splitArgs valStr).2.2.Err ≠ none then [(splitArgs valStr).2.2]
      else if (splitArgs valStr).1 = lit "non-empty" then
        (if (fromIntArgValidator nonEmpty f.2 (splitArgs valStr).2.1).Err ≠ none then
          [fromIntArgValidator nonEmpty f.2 (splitArgs valStr).2.1]
        else [])
      else [⟨some ErrInvalidValidatorSyntax⟩] := by
  rcases hsplit : splitArgs valStr with ⟨valName, args, err⟩
  by_cases herr : err.Err = none
  · by_cases hname : valName = lit "non-empty"
    · subst hname
      by_cases hv : (fromIntArgValidator nonEmpty f.2 args).Err = none
      · simp [fieldFailures, Validate.body, h, hexp, hsplit, herr, getValidator_nonEmpty, hv]
      · simp [fieldFailures, Validate.body, h, hexp, hsplit, herr, getValidator_nonEmpty, hv]
    · simp [fieldFailures, Validate.body, h, hexp, hsplit, herr, getValidator_unknown _ hname,
        hname]
  · simp [fieldFailures, Validate.body, h, hexp, hsplit, herr]

theorem rulePasses_iff (f : StructField × Value) (valStr : GoString)
    (h : f.1.validateTag = some valStr) (hexp : f.1.IsExported = true) :
    rulePasses valStr f.2 = true ↔ fieldFailures f = [] := by
  rw [fieldFailures_exported f valStr h hexp]
  rcases hsplit : splitArgs valStr with ⟨valName, args, err⟩
  by_cases herr : err.Err = none
  · by_cases hname : valName = lit "non-empty"
    · subst hname
      by_cases hv : (fromIntArgValidator nonEmpty f.2 args).Err = none
      · simp [rulePasses, hsplit, herr, getValidator_nonEmpty, hv]
      · simp [rulePasses, hsplit, herr, getValidator_nonEmpty, hv]
    · simp [rulePasses, hsplit, herr, getValidator_unknown _ hname, hname]
  · simp [rulePasses, hsplit, herr]

theorem flatMap_length_eq_countP {α β : Type} (g : α → List β) (l : List α)
    (h : ∀ a ∈ l, (g a).length ≤ 1) :
    (l.flatMap g).length = l.countP (fun a => !(g a).isEmpty) := by
  induction l with
  | nil => simp
  | cons a rest ih =>
    have ha : (g a).length ≤ 1 := h a (by simp)
    have ih1 := ih (fun b hb => h b (by simp [hb]))
    rw [List.flatMap_cons, List.length_append, ih1, List.countP_cons]
    cases hg : g a with
    | nil => simp
    | cons x xs =>
      have hlen : (x :: xs).length ≤ 1 := hg ▸ ha
      have hxs : xs = [] := by
        cases xs with
        | nil => rfl
        | cons y ys => simp at hlen
      subst hxs
      simp
      omega

theorem flatMap_eq_nil {α β : Type} (g : α → List β) (l : List α) :
    l.flatMap g = [] ↔ ∀ a ∈ l, g a = [] := by
  induction l with
  | nil => simp
  | cons a rest ih => simp [List.flatMap_cons, ih]

/-! ## `strconv.Atoi` on a decimal rendering -/


theorem digit_val (n : Nat) : (Fin.ofNat (48 + n % 10) : Byte).val = 48 + n % 10 := by
  simp [Fin.ofNat]
  omega

theorem parseDecimal_formatLoop (fuel : Nat) :
    ∀ (n : Nat) (acc : GoString), n < fuel →
      ∃ k, ∀ a, parseDecimal a (formatLoop fuel n acc) = parseDecimal (a * 10 ^ k + n) acc := by
  induction fuel with
  | zero => intro n acc h; omega
  | succ fuel ih =>
    intro n acc h
    by_cases hn : n / 10 = 0
    · refine ⟨1, fun a => ?_⟩
      have hmod : n % 10 = n := by omega
      simp only [formatLoop, hn, if_true, parseDecimal, digit_val]
      have h1 : 48 ≤ 48 + n % 10 ∧ 48 + n % 10 ≤ 57 := by omega
      rw [if_pos h1]
      congr 1
      omega
    · obtain ⟨k, hk⟩ := ih (n / 10) (Fin.ofNat (48 + n % 10) :: acc) (by omega)
      refine ⟨k + 1, fun a => ?_⟩
      simp only [formatLoop, hn, if_false]
      rw [hk a]
      simp only [parseDecimal, digit_val]
      have h1 : 48 ≤ 48 + n % 10 ∧ 48 + n % 10 ≤ 57 := by omega
      rw [if_pos h1]
      congr 1
      have := Nat.div_add_mod n 10
      rw [pow_succ]
      have h2 : (a * 10 ^ k + n / 10) * 10 = a * (10 ^ k * 10) + 10 * (n / 10) := by ring
      omega

theorem formatLoop_head (fuel : Nat) :
    ∀ (n : Nat) (acc : GoString), 0 < fuel →
      ∃ c rest, formatLoop fuel n acc = c :: rest ∧ 48 ≤ c.val ∧ c.val ≤ 57 := by
  induction fuel with
  | zero => intro n acc h; omega
  | succ fuel ih =>
    intro n acc _
    have hd : 48 ≤ (Fin.ofNat (48 + n % 10) : Byte).val ∧
        (Fin.ofNat (48 + n % 10) : Byte).val ≤ 57 := by
      rw [digit_val]; omega
    by_cases hn : n / 10 = 0
    · exact ⟨Fin.ofNat (48 + n % 10), acc, by simp [formatLoop, hn], hd⟩
    · cases fuel with
      | zero => exact ⟨Fin.ofNat (48 + n % 10), acc, by simp [formatLoop, hn], hd⟩
      | succ fuel =>
        obtain ⟨c, rest, h1, h2⟩ := ih (n / 10) (Fin.ofNat (48 + n % 10) :: acc) (by omega)
        exact ⟨c, rest, by simp only [formatLoop, hn, if_false] at h1 ⊢; exact h1, h2⟩

/-- Reading back the decimal rendering of a number that fits `int`. -/
theorem Atoi_Itoa (m : Nat) (h : m < 2 ^ 63) : Atoi (Itoa m) = some (m : Int) := by
  obtain ⟨c, rest, hc, h48, h57⟩ := formatLoop_head (m + 1) m [] (by omega)
  obtain ⟨k, hk⟩ := parseDecimal_formatLoop (m + 1) m [] (by omega)
  have hp : parseDecimal 0 (c :: rest) = some m := by
    rw [← hc, hk 0]; simp [parseDecimal]
  have h45 : c.val ≠ 45 := by omega
  have h43 : c.val ≠ 43 := by omega
  unfold Itoa
  rw [hc]
  simp [Atoi, h45, h43, hp, intSize]
  omega

/-- The decimal rendering of a number beyond the range of `int` is refused. -/
theorem Atoi_Itoa_range (m : Nat) (h : 2 ^ 63 ≤ m) : Atoi (Itoa m) = none := by
  obtain ⟨c, rest, hc, h48, h57⟩ := formatLoop_head (m + 1) m [] (by omega)
  obtain ⟨k, hk⟩ := parseDecimal_formatLoop (m + 1) m [] (by omega)
  have hp : parseDecimal 0 (c :: rest) = some m := by
    rw [← hc, hk 0]; simp [parseDecimal]
  have h45 : c.val ≠ 45 := by omega
  have h43 : c.val ≠ 43 := by omega
  unfold Itoa
  rw [hc]
  simp [Atoi, h45, h43, hp, intSize]
  omega

theorem Atoi_none_or_integerValue (a : GoString) : Atoi a = none ∨ Atoi a = integerValue a := by
  cases a with
  | nil => simp [Atoi]
  | cons c rest =>
    by_cases h45 : c.val = 45
    · by_cases hr : rest = []
      · simp [Atoi, h45, hr]
      · cases hp : parseDecimal 0 rest with
        | none => simp [Atoi, h45, hr, hp]
        | some un =>
          by_cases hb : un ≤ 2 ^ (intSize - 1)
          · simp [Atoi, integerValue, h45, hr, hp, hb]
          · simp [Atoi, h45, hr, hp, hb]
    · by_cases h43 : c.val = 43
      · by_cases hr : rest = []
        · simp [Atoi, h43, hr]
        · cases hp : parseDecimal 0 rest with
          | none => simp [Atoi, h43, hr, hp]
          | some un =>
            by_cases hb : un < 2 ^ (intSize - 1)
            · simp [Atoi, integerValue, h43, hr, hp, hb]
            · simp [Atoi, h43, hr, hp, hb]
      · cases hp : parseDecimal 0 (c :: rest) with
        | none => simp [Atoi, h45, h43, hp]
        | some un =>
          by_cases hb : un < 2 ^ (intSize - 1)
          · simp [Atoi, integerValue, h45, h43, hp, hb]
          · simp [Atoi, h45, h43, hp, hb]

/-- An argument that is not an integer, or is an integer below 1, never gets
past `fromIntArgValidator` and the guard of the rule. -/
theorem nonEmpty_bad_argument (a : GoString) (v : Value)
    (h : integerValue a = none ∨ ∃ n : Int, n ≤ 0 ∧ integerValue a = some n) :
    fromIntArgValidator nonEmpty v [a] = ⟨some ErrInvalidValidatorSyntax⟩ := by
  rcases Atoi_none_or_integerValue a with h0 | h0
  · simp [fromIntArgValidator, h0]
  · rcases h with h | ⟨n, hn, h⟩
    · rw [h] at h0; simp [fromIntArgValidator, h0]
    · rw [h] at h0
      have hlt : n < 1 := by omega
      simp [fromIntArgValidator, h0, nonEmpty, hlt]

theorem fromIntArgValidator_arity (val : intArgValidator) (v : Value) (args : List GoString)
    (h : args.length ≠ 1) :
    fromIntArgValidator val v args = ⟨some ErrInvalidValidatorSyntax⟩ := by
  cases args with
  | nil => rfl
  | cons a rest =>
    cases rest with
    | nil => simp at h
    | cons b rest => rfl

/-! ## `strings.Cut` and `strings.Split` -/

theorem IndexByte_eq_none (s : GoString) (c : Byte) : IndexByte s c = none ↔ c ∉ s := by
  induction s with
  | nil => simp [IndexByte]
  | cons b bs ih =>
    by_cases hb : b = c
    · simp [IndexByte, hb]
    · simp [IndexByte, hb, ih, Ne.symm hb]

theorem IndexByte_eq_some (s : GoString) (c : Byte) (i : Nat) (h : IndexByte s c = some i) :
    s = s.take i ++ c :: s.drop (i + 1) ∧ c ∉ s.take i := by
  induction s generalizing i with
  | nil => simp [IndexByte] at h
  | cons b bs ih =>
    by_cases hb : b = c
    · simp [IndexByte, hb] at h
      subst h
      simp [hb]
    · simp only [IndexByte, hb, if_false, Option.map_eq_some'] at h
      obtain ⟨j, hj, rfl⟩ := h
      obtain ⟨h1, h2⟩ := ih j hj
      constructor
      · simp only [List.take_succ_cons, List.drop_succ_cons, List.cons_append]
        rw [← h1]
      · simp [List.take_succ_cons, Ne.symm hb, h2]

/-- The loop of `strings.genSplit`, run as often as there are separators, gives
pieces without a separator that, joined with it, are the text again. -/
theorem genSplitLoop_spec (n : Nat) :
    ∀ (s : GoString) (sep : Byte), Count s sep = n →
      [sep].intercalate (genSplitLoop n s sep) = s ∧
      (∀ a ∈ genSplitLoop n s sep, sep ∉ a) ∧
      (genSplitLoop n s sep).length = n + 1 := by
  induction n with
  | zero =>
    intro s sep h
    have hnot : sep ∉ s := by
      simpa [Count, List.count_eq_zero] using h
    simp [genSplitLoop, List.intercalate, hnot]
  | succ n ih =>
    intro s sep h
    cases hi : IndexByte s sep with
    | none =>
      have hnot : sep ∉ s := (IndexByte_eq_none s sep).1 hi
      have : Count s sep = 0 := by simpa [Count, List.count_eq_zero] using hnot
      omega
    | some m =>
      obtain ⟨h1, h2⟩ := IndexByte_eq_some s sep m hi
      have hc : Count (s.drop (m + 1)) sep = n := by
        have h3 : Count s sep = Count (s.take m) sep + (1 + Count (s.drop (m + 1)) sep) := by
          conv_lhs => rw [h1]
          simp [Count, List.count_append, List.count_cons]
          omega
        have h4 : Count (s.take m) sep = 0 := by
          simpa [Count, List.count_eq_zero] using h2
        omega
      obtain ⟨i1, i2, i3⟩ := ih (s.drop (m + 1)) sep hc
      simp only [genSplitLoop, hi]
      refine ⟨?_, ?_, ?_⟩
      · have hne : genSplitLoop n (s.drop (m + 1)) sep ≠ [] := by
          intro h0; rw [h0] at i3; simp at i3
        obtain ⟨p, ps, hp⟩ := List.exists_cons_of_ne_nil hne
        rw [hp] at i1 ⊢
        conv_rhs => rw [h1]
        rw [← i1]
        simp [List.intercalate, List.intersperse]
      · intro a ha
        rcases List.mem_cons.1 ha with rfl | ha
        · exact h2
        · exact i2 a ha
      · simp [i3]

theorem Split_spec (s : GoString) (sep : Byte) :
    [sep].intercalate (Split s sep) = s ∧ (∀ a ∈ Split s sep, sep ∉ a) ∧
      (Split s sep).length = Count s sep + 1 :=
  genSplitLoop_spec (Count s sep) s sep rfl

theorem IndexByte_append (pre post : GoString) (c : Byte) (h : c ∉ pre) :
    IndexByte (pre ++ c :: post) c = some pre.length := by
  induction pre with
  | nil => simp [IndexByte]
  | cons b bs ih =>
    have hb : b ≠ c := fun e => h (by simp [e])
    have hbs : c ∉ bs := fun e => h (by simp [e])
    simp [IndexByte, hb, ih hbs]

theorem Cut_of_not_mem (s : GoString) (sep : Byte) (h : sep ∉ s) : Cut s sep = (s, [], false) := by
  simp [Cut, (IndexByte_eq_none s sep).2 h]

theorem Cut_append (pre post : GoString) (sep : Byte) (h : sep ∉ pre) :
    Cut (pre ++ sep :: post) sep = (pre, post, true) := by
  simp [Cut, IndexByte_append pre post sep h]

/-- Every text with a separator is a prefix without one, the separator, and the
rest. -/
theorem exists_first_sep (s : GoString) (sep : Byte) (h : sep ∈ s) :
    ∃ pre post, s = pre ++ sep :: post ∧ sep ∉ pre := by
  cases hi : IndexByte s sep with
  | none => exact absurd h ((IndexByte_eq_none s sep).1 hi)
  | some i =>
    obtain ⟨h1, h2⟩ := IndexByte_eq_some s sep i hi
    exact ⟨s.take i, s.drop (i + 1), h1, h2⟩

theorem lit_empty : lit "" = [] := rfl

theorem splitArgs_of_not_mem (s : GoString) (h : colon ∉ s) :
    splitArgs s = (s, [], ⟨some ErrInvalidValidatorSyntax⟩) := by
  simp [splitArgs, Cut_of_not_mem s colon h]

theorem splitArgs_append (name rest : GoString) (h : colon ∉ name) :
    splitArgs (name ++ colon :: rest) =
      (name, if rest = [] then [] else Split rest comma, ⟨none⟩) := by
  unfold splitArgs
  rw [Cut_append name rest colon h]
  by_cases hr : rest = []
  · simp [hr, lit_empty]
  · simp [hr, lit_empty]

/-! ## `ValidationErrors.Error` -/

theorem ErrorLoop_causes (causes : List errorString) (res : GoString) :
    ValidationErrors.ErrorLoop (causes.map fun c => ⟨some c⟩) res =
      Except.ok (res ++ (causes.map fun c => c.Error ++ lit "\n").flatten) := by
  induction causes generalizing res with
  | nil => simp [ValidationErrors.ErrorLoop]
  | cons c rest ih =>
    simp [ValidationErrors.ErrorLoop, ValidationError.message, ih, List.append_assoc]

/-! ## The decimal rendering as a rule argument -/

theorem formatLoop_bytes (fuel : Nat) :
    ∀ (n : Nat) (acc : GoString), ∀ b ∈ formatLoop fuel n acc, b ∈ acc ∨ (48 ≤ b.val ∧ b.val ≤ 57) := by
  induction fuel with
  | zero => intro n acc b hb; exact Or.inl hb
  | succ fuel ih =>
    intro n acc b hb
    have hd : 48 ≤ (Fin.ofNat (48 + n % 10) : Byte).val ∧
        (Fin.ofNat (48 + n % 10) : Byte).val ≤ 57 := by
      rw [digit_val]; omega
    by_cases hn : n / 10 = 0
    · simp only [formatLoop, hn, if_true] at hb
      rcases List.mem_cons.1 hb with rfl | hb
      · exact Or.inr hd
      · exact Or.inl hb
    · simp only [formatLoop, hn, if_false] at hb
      rcases ih _ _ b hb with h | h
      · rcases List.mem_cons.1 h with rfl | h
        · exact Or.inr hd
        · exact Or.inl h
      · exact Or.inr h

theorem Itoa_ne_nil (m : Nat) : Itoa m ≠ [] := by
  obtain ⟨c, rest, hc, -, -⟩ := formatLoop_head (m + 1) m [] (by omega)
  unfold Itoa; rw [hc]; simp

theorem comma_not_mem_Itoa (m : Nat) : comma ∉ Itoa m := by
  intro h
  rcases formatLoop_bytes (m + 1) m [] comma h with h | h
  · simp at h
  · have hv : comma.val = 44 := rfl
    omega

theorem Split_of_not_mem (s : GoString) (sep : Byte) (h : sep ∉ s) : Split s sep = [s] := by
  have hc : Count s sep = 0 := by simpa [Count, List.count_eq_zero] using h
  simp [Split, hc, genSplitLoop]

theorem splitArgs_nonEmpty_Itoa (m : Nat) :
    splitArgs (lit "non-empty:" ++ Itoa m) = (lit "non-empty", [Itoa m], ⟨none⟩) := by
  have h1 : lit "non-empty:" ++ Itoa m = lit "non-empty" ++ colon :: Itoa m := by
    have : lit "non-empty:" = lit "non-empty" ++ [colon] := by decide
    rw [this]; simp
  have h2 : colon ∉ lit "non-empty" := by decide
  rw [h1, splitArgs_append _ _ h2, if_neg (Itoa_ne_nil m), Split_of_not_mem _ _ (comma_not_mem_Itoa m)]

/-- The rule "non-empty" on a text with a maximum that fits `int`. -/
theorem nonEmpty_Itoa (m : Nat) (s : GoString) (hm : 1 ≤ m) (hmax : m < 2 ^ 63) :
    fromIntArgValidator nonEmpty (Value.string s) [Itoa m] =
      if RuneCountInString s = 0 ∨ m < RuneCountInString s then
        ⟨some (errorString.New (lit "validator non-empty"))⟩
      else ⟨none⟩ := by
  have hlt : ¬ ((m : Int) < 1) := by omega
  simp only [fromIntArgValidator, Atoi_Itoa m hmax, nonEmpty, Value.Kind, Value.String, hlt,
    ne_eq, not_true_eq_false, or_self, if_false]
  by_cases h : RuneCountInString s = 0 ∨ m < RuneCountInString s
  · have h' : ((RuneCountInString s : Nat) : Int) = 0 ∨ ((RuneCountInString s : Nat) : Int) > (m : Int) := by
      rcases h with h | h
      · left; exact_mod_cast h
      · right; exact_mod_cast h
    rw [if_pos h, if_pos h']
  · have h' : ¬ (((RuneCountInString s : Nat) : Int) = 0 ∨ ((RuneCountInString s : Nat) : Int) > (m : Int)) := by
      intro h''
      apply h
      rcases h'' with h'' | h''
      · left; exact_mod_cast h''
      · right; exact_mod_cast h''
    rw [if_neg h, if_neg h']

/-! ## `utf8.RuneCountInString` -/

theorem runeWidth_pos (s : GoString) : 1 ≤ runeWidth s := by
  unfold runeWidth
  repeat' split
  all_goals omega

/-- More fuel than the length of the text changes nothing: the loop of
`RuneCountInString` stops because the text is used up, never because the fuel
is. -/
theorem runeCountLoop_fuel (fuel : Nat) :
    ∀ (s : GoString) (n : Nat), s.length ≤ fuel →
      runeCountLoop fuel s n = runeCountLoop s.length s n := by
  induction fuel using Nat.strong_induction_on with
  | _ fuel ih =>
    intro s n h
    cases s with
    | nil => cases fuel <;> simp [runeCountLoop]
    | cons c rest =>
      cases fuel with
      | zero => simp at h
      | succ fuel =>
        have hw := runeWidth_pos (c :: rest)
        have hlen : ((c :: rest).drop (runeWidth (c :: rest))).length ≤ rest.length := by
          simp [List.length_drop]; omega
        have hf : rest.length ≤ fuel := by simpa using h
        simp only [runeCountLoop, List.length_cons]
        rw [if_neg (by simp), if_neg (by simp)]
        rw [ih fuel (by omega) _ _ (by omega)]
        by_cases hlt : rest.length < fuel + 1
        · exact (ih rest.length (by omega) _ _ hlen).symm
        · omega

theorem ofNat_val (n : Nat) (h : n < 256) : (Fin.ofNat n : Byte).val = n := by
  simp [Fin.ofNat]
  omega

theorem char_range (c : Char) : c.toNat < 0xD800 ∨ (0xDFFF < c.toNat ∧ c.toNat < 0x110000) :=
  c.valid
theorem first_two (c : Nat) (h : 0xC2 ≤ c ∧ c < 0xE0) : first c = some (2, 0x80, 0xBF) := by
  unfold first
  split_ifs <;> first | rfl | omega

theorem first_three (c : Nat) (h : 0xE0 ≤ c ∧ c < 0xF0) :
    first c = some (3, if c = 0xE0 then 0xA0 else 0x80, if c = 0xED then 0x9F else 0xBF) := by
  unfold first
  split_ifs <;> first | rfl | omega

theorem first_four (c : Nat) (h : 0xF0 ≤ c ∧ c < 0xF5) :
    first c = some (4, if c = 0xF0 then 0x90 else 0x80, if c = 0xF4 then 0x8F else 0xBF) := by
  unfold first
  split_ifs <;> first | rfl | omega

/-- On the UTF-8 encoding of a code point, one iteration of `RuneCountInString`
advances over the whole encoding. -/
theorem runeWidth_encodeRune (c : Char) (rest : GoString) :
    runeWidth (encodeRune c ++ rest) = (encodeRune c).length := by
  have hr := char_range c
  unfold encodeRune
  simp only
  generalize c.toNat = r at hr
  by_cases h1 : r < 0x80
  · simp [h1, runeWidth, ofNat_val r (by omega)]
  · by_cases h2 : r < 0x800
    · have e0 := ofNat_val (0xC0 + r / 64) (by omega)
      have e1 := ofNat_val (0x80 + r % 64) (by omega)
      have hf := first_two (0xC0 + r / 64) (by omega)
      have hn : ¬ (0xC0 + r / 64 < 0x80) := by omega
      simp only [h1, h2, if_false, if_true, List.cons_append, List.nil_append, runeWidth, e0, e1,
        hf, hn, outside, List.length_cons, List.length_nil]
      have ho : ¬ (0x80 + r % 64 < 0x80 ∨ 0xBF < 0x80 + r % 64) := by omega
      simp
      split_ifs <;> omega
    · by_cases h3 : r < 0x10000
      · have e0 := ofNat_val (0xE0 + r / 4096) (by omega)
        have e1 := ofNat_val (0x80 + r / 64 % 64) (by omega)
        have e2 := ofNat_val (0x80 + r % 64) (by omega)
        have hf := first_three (0xE0 + r / 4096) (by omega)
        have hn : ¬ (0xE0 + r / 4096 < 0x80) := by omega
        simp only [h1, h2, h3, if_false, if_true, List.cons_append, List.nil_append, runeWidth,
          e0, e1, e2, hf, hn, outside, List.length_cons, List.length_nil]
        have ho1 : ¬ (0x80 + r / 64 % 64 < (if 0xE0 + r / 4096 = 0xE0 then 0xA0 else 0x80) ∨
            (if 0xE0 + r / 4096 = 0xED then 0x9F else 0xBF) < 0x80 + r / 64 % 64) := by
          split_ifs <;> omega
        have ho2 : ¬ (0x80 + r % 64 < 0x80 ∨ 0xBF < 0x80 + r % 64) := by omega
        simp
        split_ifs <;> omega
      · have e0 := ofNat_val (0xF0 + r / 262144) (by omega)
        have e1 := ofNat_val (0x80 + r / 4096 % 64) (by omega)
        have e2 := ofNat_val (0x80 + r / 64 % 64) (by omega)
        have e3 := ofNat_val (0x80 + r % 64) (by omega)
        have hf := first_four (0xF0 + r / 262144) (by omega)
        have hn : ¬ (0xF0 + r / 262144 < 0x80) := by omega
        simp only [h1, h2, h3, if_false, if_true, List.cons_append, List.nil_append, runeWidth,
          e0, e1, e2, e3, hf, hn, outside, List.length_cons, List.length_nil]
        have ho1 : ¬ (0x80 + r / 4096 % 64 < (if 0xF0 + r / 262144 = 0xF0 then 0x90 else 0x80) ∨
            (if 0xF0 + r / 262144 = 0xF4 then 0x8F else 0xBF) < 0x80 + r / 4096 % 64) := by
          split_ifs <;> omega
        have ho2 : ¬ (0x80 + r / 64 % 64 < 0x80 ∨ 0xBF < 0x80 + r / 64 % 64) := by omega
        have ho3 : ¬ (0x80 + r % 64 < 0x80 ∨ 0xBF < 0x80 + r % 64) := by omega
        simp
        split_ifs <;> omega
theorem encodeRune_length_pos (c : Char) : 1 ≤ (encodeRune c).length := by
  unfold encodeRune
  simp only
  split_ifs <;> simp

theorem runeCountLoop_encode (cs : List Char) :
    ∀ (fuel n : Nat), (cs.flatMap encodeRune).length ≤ fuel →
      runeCountLoop fuel (cs.flatMap encodeRune) n = n + cs.length := by
  induction cs with
  | nil => intro fuel n _; cases fuel <;> simp [runeCountLoop]
  | cons c cs ih =>
    intro fuel n h
    have hpos := encodeRune_length_pos c
    rw [List.flatMap_cons] at h ⊢
    rw [List.length_append] at h
    cases fuel with
    | zero => omega
    | succ fuel =>
      have hne : encodeRune c ++ cs.flatMap encodeRune ≠ [] := by
        intro h0
        have := congrArg List.length h0
        rw [List.length_append, List.length_nil] at this
        omega
      simp only [runeCountLoop, if_neg hne, runeWidth_encodeRune, List.drop_left]
      rw [ih fuel (n + 1) (by omega)]
      simp
      omega

/-- On well-formed UTF-8, `RuneCountInString` is the number of code points. -/
theorem RuneCountInString_encode (cs : List Char) :
    RuneCountInString (cs.flatMap encodeRune) = cs.length := by
  have := runeCountLoop_encode cs (cs.flatMap encodeRune).length 0 (le_refl _)
  simpa [RuneCountInString] using this

theorem RuneCountInString_lit (s : String) : RuneCountInString (lit s) = s.length :=
  RuneCountInString_encode s.toList

/-! ## The outcomes of the rule and of the parser -/

theorem splitArgs_err (s : GoString) :
    (splitArgs s).2.2 = ⟨none⟩ ∨ (splitArgs s).2.2 = ⟨some ErrInvalidValidatorSyntax⟩ := by
  by_cases h : colon ∈ s
  · obtain ⟨name, rest, hs, hname⟩ := exists_first_sep s colon h
    left
    rw [hs, splitArgs_append name rest hname]
  · right
    rw [splitArgs_of_not_mem s h]

theorem nonEmpty_not_string (field : Value) (arg : Int) (h : field.Kind ≠ Kind.String) :
    nonEmpty field arg = ⟨some ErrInvalidValidatorSyntax⟩ := by
  simp [nonEmpty, h]

/-- The three outcomes of the rule "non-empty" on a text and a parsed maximum. -/
theorem nonEmpty_string (field : Value) (arg : Int) (h : field.Kind = Kind.String) :
    nonEmpty field arg =
      if arg < 1 then ⟨some ErrInvalidValidatorSyntax⟩
      else if RuneCountInString field.String = 0 ∨ arg < (RuneCountInString field.String : Int) then
        ⟨some (errorString.New (lit "validator non-empty"))⟩
      else ⟨none⟩ := by
  by_cases h1 : arg < 1
  · simp [nonEmpty, h1]
  · by_cases h2 : RuneCountInString field.String = 0 ∨
        arg < (RuneCountInString field.String : Int)
    · have h2' : ((RuneCountInString field.String : Nat) : Int) = 0 ∨
          ((RuneCountInString field.String : Nat) : Int) > arg := by
        rcases h2 with h2 | h2
        · left; exact_mod_cast h2
        · right; exact h2
      simp only [nonEmpty, h1, h, ne_eq, not_true_eq_false, or_self, if_false]
      rw [if_pos h2', if_pos h2]
    · have h2' : ¬ (((RuneCountInString field.String : Nat) : Int) = 0 ∨
          ((RuneCountInString field.String : Nat) : Int) > arg) := by
        intro h3
        apply h2
        rcases h3 with h3 | h3
        · left; exact_mod_cast h3
        · right; exact h3
      simp only [nonEmpty, h1, h, ne_eq, not_true_eq_false, or_self, if_false]
      rw [if_neg h2', if_neg h2]

/-- The validator of "non-empty" returns the rule violation exactly on one
argument that `Atoi` reads as a maximum of 1 or more, a value of kind `String`,
and a count of runes that is 0 or more than the maximum. -/
theorem nonEmpty_violation_iff (field : Value) (args : List GoString) :
    fromIntArgValidator nonEmpty field args =
        ⟨some (errorString.New (lit "validator non-empty"))⟩ ↔
      ∃ (a : GoString) (m : Int), args = [a] ∧ Atoi a = some m ∧ 1 ≤ m ∧
        field.Kind = Kind.String ∧
        (RuneCountInString field.String = 0 ∨ m < (RuneCountInString field.String : Int)) := by
  constructor
  · intro h
    by_cases hlen : args.length = 1
    · obtain ⟨a, rfl⟩ := List.length_eq_one.1 hlen
      cases hat : Atoi a with
      | none => simp [fromIntArgValidator, hat] at h
      | some m =>
        simp only [fromIntArgValidator, hat] at h
        by_cases hk : field.Kind = Kind.String
        · rw [nonEmpty_string field m hk] at h
          by_cases h1 : m < 1
          · simp [h1] at h
          · rw [if_neg h1] at h
            by_cases h2 : RuneCountInString field.String = 0 ∨
                m < (RuneCountInString field.String : Int)
            · exact ⟨a, m, rfl, hat, by omega, hk, h2⟩
            · rw [if_neg h2] at h; simp at h
        · rw [nonEmpty_not_string field m hk] at h; simp at h
    · rw [fromIntArgValidator_arity nonEmpty field args hlen] at h; simp at h
  · rintro ⟨a, m, rfl, hat, hm, hk, hc⟩
    have h1 : ¬ m < 1 := by omega
    simp only [fromIntArgValidator, hat]
    rw [nonEmpty_string field m hk, if_neg h1, if_pos hc]

theorem body_of_fieldFailures (errs : ValidationErrors) (typeField : StructField) (field : Value)
    (e : ValidationErrors) (h : fieldFailures (typeField, field) = e) :
    Validate.body errs typeField field = Except.ok (errs ++ e) := by
  have hb := body_eq errs (typeField, field)
  rw [h] at hb
  exact hb

theorem Validate_single (f : StructField × Value) :
    Validate (Value.struct [f]) =
      Except.ok (if fieldFailures f = [] then none
        else some (error.ValidationErrors (fieldFailures f))) := by
  have h := Validate_struct [f]
  simpa using h

theorem Validate_single_eq_iff (f : StructField × Value) (e : ValidationError) :
    Validate (Value.struct [f]) = Except.ok (some (error.ValidationErrors [e])) ↔
      fieldFailures f = [e] := by
  rw [Validate_single]
  by_cases h : fieldFailures f = []
  · simp [h]
  · simp [h]

theorem exported_violation_iff (valStr : GoString) (field : Value) :
    (if (splitArgs valStr).2.2.Err ≠ none then [(splitArgs valStr).2.2]
      else if (splitArgs valStr).1 = lit "non-empty" then
        (if (fromIntArgValidator nonEmpty field (splitArgs valStr).2.1).Err ≠ none then
          [fromIntArgValidator nonEmpty field (splitArgs valStr).2.1]
        else [])
      else [⟨some ErrInvalidValidatorSyntax⟩]) =
        [⟨some (errorString.New (lit "validator non-empty"))⟩] ↔
      (splitArgs valStr).2.2 = ⟨none⟩ ∧ (splitArgs valStr).1 = lit "non-empty" ∧
        fromIntArgValidator nonEmpty field (splitArgs valStr).2.1 =
          ⟨some (errorString.New (lit "validator non-empty"))⟩ := by
  rcases splitArgs_err valStr with herr | herr
  · rw [herr]
    by_cases hname : (splitArgs valStr).1 = lit "non-empty"
    · by_cases hr : (fromIntArgValidator nonEmpty field (splitArgs valStr).2.1).Err = none
      · have hne : fromIntArgValidator nonEmpty field (splitArgs valStr).2.1 ≠
            ⟨some (errorString.New (lit "validator non-empty"))⟩ := by
          intro h0; rw [h0] at hr; simp at hr
        simp [hname, hr, hne]
      · simp [hname, hr]
    · simp [hname]
  · rw [herr]
    simp

theorem fieldFailures_violation_iff (typeField : StructField) (field : Value) :
    fieldFailures (typeField, field) = [⟨some (errorString.New (lit "validator non-empty"))⟩] ↔
      typeField.IsExported = true ∧
        ∃ (valStr a : GoString) (m : Int), typeField.validateTag = some valStr ∧
          splitArgs valStr = (lit "non-empty", [a], ⟨none⟩) ∧ Atoi a = some m ∧ 1 ≤ m ∧
          field.Kind = Kind.String ∧
          (RuneCountInString field.String = 0 ∨ m < (RuneCountInString field.String : Int)) := by
  cases htag : typeField.validateTag with
  | none =>
    rw [fieldFailures_untagged (typeField, field) htag]
    simp
  | some valStr =>
    cases hexp : typeField.IsExported with
    | false =>
      rw [fieldFailures_unexported (typeField, field) valStr htag hexp]
      simp
    | true =>
      rw [fieldFailures_exported (typeField, field) valStr htag hexp, exported_violation_iff,
        nonEmpty_violation_iff]
      constructor
      · rintro ⟨h1, h2, a, m, hargs, hrest⟩
        refine ⟨rfl, valStr, a, m, rfl, ?_, hrest⟩
        rw [← h1, ← h2, ← hargs]
      · rintro ⟨-, valStr', a, m, hv, hsplit, hrest⟩
        have hv' : valStr = valStr' := by simpa using hv
        subst hv'
        rw [hsplit]
        exact ⟨rfl, rfl, a, m, rfl, hrest⟩

/-! ## Separators inside the arguments -/

theorem parseDecimal_digits (s : GoString) :
    ∀ (n k : Nat), parseDecimal n s = some k → ∀ b ∈ s, 48 ≤ b.val ∧ b.val ≤ 57 := by
  induction s with
  | nil => intro n k _ b hb; simp at hb
  | cons c rest ih =>
    intro n k h b hb
    by_cases hc : 48 ≤ c.val ∧ c.val ≤ 57
    · simp only [parseDecimal, hc, and_self, if_true] at h
      rcases List.mem_cons.1 hb with rfl | hb
      · exact hc
      · exact ih _ k h b hb
    · simp [parseDecimal, hc] at h

/-- `Atoi` accepts no text with a byte that is neither a digit nor a sign. -/
theorem Atoi_bytes (a : GoString) (m : Int) (h : Atoi a = some m) :
    ∀ b ∈ a, (48 ≤ b.val ∧ b.val ≤ 57) ∨ b.val = 45 ∨ b.val = 43 := by
  cases a with
  | nil => simp [Atoi] at h
  | cons c rest =>
    intro b hb
    by_cases hsign : c.val = 45 ∨ c.val = 43
    · cases hp : parseDecimal 0 rest with
      | none =>
        by_cases hr : rest = []
        · simp [Atoi, hsign, hr] at h
        · simp [Atoi, hsign, hr, hp] at h
      | some un =>
        rcases List.mem_cons.1 hb with rfl | hb
        · exact Or.inr hsign
        · exact Or.inl (parseDecimal_digits rest 0 un hp b hb)
    · cases hp : parseDecimal 0 (c :: rest) with
      | none => simp [Atoi, hsign, hp] at h
      | some un => exact Or.inl (parseDecimal_digits (c :: rest) 0 un hp b hb)

theorem Atoi_colon (a : GoString) (h : colon ∈ a) : Atoi a = none := by
  cases hat : Atoi a with
  | none => rfl
  | some m =>
    have hb := Atoi_bytes a m hat colon h
    have hv : colon.val = 58 := rfl
    omega

theorem nonEmpty_colon_in_arguments (field : Value) (rest : GoString) (h : colon ∈ rest) :
    fromIntArgValidator nonEmpty field (Split rest comma) = ⟨some ErrInvalidValidatorSyntax⟩ := by
  by_cases hlen : (Split rest comma).length = 1
  · obtain ⟨a, ha⟩ := List.length_eq_one.1 hlen
    have hjoin := (Split_spec rest comma).1
    rw [ha] at hjoin ⊢
    have hrest : a = rest := by simpa [List.intercalate] using hjoin
    subst hrest
    simp [fromIntArgValidator, Atoi_colon a h]
  · exact fromIntArgValidator_arity nonEmpty field _ hlen

theorem exists_two_seps (s : GoString) (sep : Byte) (h : 2 ≤ Count s sep) :
    ∃ pre post, s = pre ++ sep :: post ∧ sep ∉ pre ∧ sep ∈ post := by
  have hmem : sep ∈ s := by
    by_contra hn
    have : Count s sep = 0 := by simpa [Count, List.count_eq_zero] using hn
    omega
  obtain ⟨pre, post, hs, hpre⟩ := exists_first_sep s sep hmem
  refine ⟨pre, post, hs, hpre, ?_⟩
  by_contra hn
  have h1 : Count pre sep = 0 := by simpa [Count, List.count_eq_zero] using hpre
  have h2 : Count post sep = 0 := by simpa [Count, List.count_eq_zero] using hn
  have h3 : Count s sep = Count pre sep + (1 + Count post sep) := by
    rw [hs]
    simp [Count, List.count_append, List.count_cons]
    omega
  omega

/-- An exported field whose tag has two separators or more yields the syntax
failure. -/
theorem fieldFailures_two_colons (valStr : GoString) (field : Value)
    (h : 2 ≤ Count valStr colon) :
    fieldFailures (⟨true, some valStr⟩, field) = [⟨some ErrInvalidValidatorSyntax⟩] := by
  obtain ⟨name, rest, hs, hname, hrest⟩ := exists_two_seps valStr colon h
  have hne : rest ≠ [] := by intro h0; rw [h0] at hrest; simp at hrest
  rw [fieldFailures_exported _ valStr rfl rfl, hs, splitArgs_append name rest hname, if_neg hne]
  by_cases hn : name = lit "non-empty"
  · simp [hn, nonEmpty_colon_in_arguments field rest hrest]
  · simp [hn]

/-! ## The text enters the rule through its count of runes -/

theorem nonEmpty_congr (s t : GoString) (args : List GoString)
    (h : RuneCountInString s = RuneCountInString t) :
    fromIntArgValidator nonEmpty (Value.string s) args =
      fromIntArgValidator nonEmpty (Value.string t) args := by
  by_cases hlen : args.length = 1
  · obtain ⟨a, rfl⟩ := List.length_eq_one.1 hlen
    cases hat : Atoi a with
    | none => simp [fromIntArgValidator, hat]
    | some m => simp [fromIntArgValidator, hat, nonEmpty, Value.Kind, Value.String, h]
  · rw [fromIntArgValidator_arity nonEmpty _ args hlen,
      fromIntArgValidator_arity nonEmpty _ args hlen]

theorem fieldFailures_congr (typeField : StructField) (s t : GoString)
    (h : RuneCountInString s = RuneCountInString t) :
    fieldFailures (typeField, Value.string s) = fieldFailures (typeField, Value.string t) := by
  cases htag : typeField.validateTag with
  | none =>
    rw [fieldFailures_untagged (typeField, Value.string s) htag,
      fieldFailures_untagged (typeField, Value.string t) htag]
  | some valStr =>
    cases hexp : typeField.IsExported with
    | false =>
      rw [fieldFailures_unexported (typeField, Value.string s) valStr htag hexp,
        fieldFailures_unexported (typeField, Value.string t) valStr htag hexp]
    | true =>
      rw [fieldFailures_exported (typeField, Value.string s) valStr htag hexp,
        fieldFailures_exported (typeField, Value.string t) valStr htag hexp]
      simp only [nonEmpty_congr s t _ h]

/-! ## The properties of the specification -/

/-- C1, as amended. For every maximum `m` with `1 ≤ m ≤ 2^63 - 1` and every text
`s`, the rule registered under "non-empty", applied to a field of kind `String`
holding `s` with the single argument `Itoa m`, returns no error if and only if
`1 ≤ RuneCountInString s ≤ m` (the count of code points, see
`RuneCountInString_encode`), and returns the rule violation
"validator non-empty" when the count is 0 and when it exceeds `m`; `Validate` on
the record whose one exported field is tagged "non-empty:" followed by `Itoa m`
returns nil in the first case and the list of that one violation in the
others. -/
theorem nonEmpty_passes_iff_count_in_range (m : Nat) (s : GoString)
    (hm : 1 ≤ m) (hmax : m < 2 ^ 63) :
    ∃ val : validator, getValidator (lit "non-empty") = (some val, ⟨none⟩) ∧
      ((val (Value.string s) [Itoa m]).Err = none ↔
        1 ≤ RuneCountInString s ∧ RuneCountInString s ≤ m) ∧
      (RuneCountInString s = 0 ∨ m < RuneCountInString s →
        val (Value.string s) [Itoa m] = ⟨some (errorString.New (lit "validator non-empty"))⟩) ∧
      (Validate (Value.struct [(⟨true, some (lit "non-empty:" ++ Itoa m)⟩, Value.string s)]) =
          Except.ok none ↔
        1 ≤ RuneCountInString s ∧ RuneCountInString s ≤ m) ∧
      (RuneCountInString s = 0 ∨ m < RuneCountInString s →
        Validate (Value.struct [(⟨true, some (lit "non-empty:" ++ Itoa m)⟩, Value.string s)]) =
          Except.ok (some (error.ValidationErrors
            [⟨some (errorString.New (lit "validator non-empty"))⟩]))) := by
  have hrule := nonEmpty_Itoa m s hm hmax
  have hfield : fieldFailures (⟨true, some (lit "non-empty:" ++ Itoa m)⟩, Value.string s) =
      if RuneCountInString s = 0 ∨ m < RuneCountInString s then
        [⟨some (errorString.New (lit "validator non-empty"))⟩]
      else [] := by
    rw [fieldFailures_exported _ (lit "non-empty:" ++ Itoa m) rfl rfl, splitArgs_nonEmpty_Itoa]
    simp only [hrule]
    by_cases h : RuneCountInString s = 0 ∨ m < RuneCountInString s
    · simp [h]
    · simp [h]
  refine ⟨fromIntArgValidator nonEmpty, getValidator_nonEmpty, ?_, ?_, ?_, ?_⟩
  · rw [hrule]
    by_cases h : RuneCountInString s = 0 ∨ m < RuneCountInString s
    · rw [if_pos h]; simp; omega
    · rw [if_neg h]; simp; omega
  · intro h
    rw [hrule, if_pos h]
  · rw [Validate_struct]
    simp only [List.flatMap_cons, List.flatMap_nil, List.append_nil, hfield]
    by_cases h : RuneCountInString s = 0 ∨ m < RuneCountInString s
    · simp [h]; omega
    · simp [h]; omega
  · intro h
    rw [Validate_struct]
    simp only [List.flatMap_cons, List.flatMap_nil, List.append_nil, hfield]
    simp [h]

/-- Witness of C1 as amended: the maximum 10 and the text "abc". -/
theorem nonEmpty_passes_iff_count_in_range_witness :
    (1 ≤ 10 ∧ 10 < 2 ^ 63) ∧
    ∃ val : validator, getValidator (lit "non-empty") = (some val, ⟨none⟩) ∧
      ((val (Value.string (lit "abc")) [Itoa 10]).Err = none ↔
        1 ≤ RuneCountInString (lit "abc") ∧ RuneCountInString (lit "abc") ≤ 10) ∧
      (RuneCountInString (lit "abc") = 0 ∨ 10 < RuneCountInString (lit "abc") →
        val (Value.string (lit "abc")) [Itoa 10] =
          ⟨some (errorString.New (lit "validator non-empty"))⟩) ∧
      (Validate (Value.struct
          [(⟨true, some (lit "non-empty:" ++ Itoa 10)⟩, Value.string (lit "abc"))]) =
          Except.ok none ↔
        1 ≤ RuneCountInString (lit "abc") ∧ RuneCountInString (lit "abc") ≤ 10) ∧
      (RuneCountInString (lit "abc") = 0 ∨ 10 < RuneCountInString (lit "abc") →
        Validate (Value.struct
          [(⟨true, some (lit "non-empty:" ++ Itoa 10)⟩, Value.string (lit "abc"))]) =
          Except.ok (some (error.ValidationErrors
            [⟨some (errorString.New (lit "validator non-empty"))⟩]))) :=
  ⟨by decide, nonEmpty_passes_iff_count_in_range 10 (lit "abc") (by decide) (by decide)⟩

/-- Counterexample to C1 as stated: with the maximum `m = 2^63`, whose decimal
rendering is "9223372036854775808", and the text "a" of one code point, the
claim requires a pass, but `strconv.Atoi` reports a range error and the rule
returns `ErrInvalidValidatorSyntax`. -/
theorem nonEmpty_maximum_beyond_int :
    Itoa (2 ^ 63) = lit "9223372036854775808" ∧
    (1 ≤ RuneCountInString (lit "a") ∧ RuneCountInString (lit "a") ≤ 2 ^ 63) ∧
    ∃ val : validator, getValidator (lit "non-empty") = (some val, ⟨none⟩) ∧
      val (Value.string (lit "a")) [Itoa (2 ^ 63)] = ⟨some ErrInvalidValidatorSyntax⟩ ∧
      Validate (Value.struct
        [(⟨true, some (lit "non-empty:" ++ Itoa (2 ^ 63))⟩, Value.string (lit "a"))]) =
        Except.ok (some (error.ValidationErrors [⟨some ErrInvalidValidatorSyntax⟩])) :=
  ⟨by decide, by decide, fromIntArgValidator nonEmpty, getValidator_nonEmpty, by decide,
    by decide⟩

/-- C2. For every record, `Validate` never panics and the list it returns is the
concatenation, in declaration order, of what each field yields when it is
validated alone in a record of its own; a field alone yields at most one entry,
and none when it has no tag or when it passes. So the list has as many entries as
there are fields that fail individually, and `Validate` returns nil exactly when
there is none. -/
theorem Validate_lists_each_failing_field (fields : List (StructField × Value)) :
    returnedList (Validate (Value.struct fields)) =
        fields.flatMap (fun f => returnedList (Validate (Value.struct [f]))) ∧
      (∀ f ∈ fields, (returnedList (Validate (Value.struct [f]))).length ≤ 1) ∧
      (∀ f ∈ fields, f.1.validateTag = none → returnedList (Validate (Value.struct [f])) = []) ∧
      (∀ f ∈ fields, Validate (Value.struct [f]) = Except.ok none →
        returnedList (Validate (Value.struct [f])) = []) ∧
      (returnedList (Validate (Value.struct fields))).length =
        fields.countP (fun f => !(returnedList (Validate (Value.struct [f]))).isEmpty) ∧
      Validate (Value.struct fields) =
        Except.ok (if returnedList (Validate (Value.struct fields)) = [] then none
          else some (error.ValidationErrors
            (fields.flatMap (fun f => returnedList (Validate (Value.struct [f])))))) := by
  have hnil : ∀ f : StructField × Value, Validate (Value.struct [f]) = Except.ok none →
      fieldFailures f = [] := by
    intro f h
    have h1 := returnedList_single f
    rw [h] at h1
    rw [← h1]; rfl
  simp only [returnedList_single]
  simp only [returnedList_struct]
  refine ⟨trivial, fun f _ => fieldFailures_length f, fun f _ h => fieldFailures_untagged f h,
    fun f _ h => hnil f h, ?_, Validate_struct fields⟩
  · exact flatMap_length_eq_countP fieldFailures fields (fun f _ => fieldFailures_length f)

/-- C3. For every input whose kind is not `Struct`, `Validate` returns the
sentinel `ErrNotStruct`: no panic, no nil, no `ValidationErrors`. -/
theorem Validate_rejects_non_struct (v : Value) (h : v.Kind ≠ Kind.Struct) :
    Validate v = Except.ok (some (error.errorString ErrNotStruct)) :=
  Validate_notStruct v h

/-- Witness of C3: a string, a map, and a pointer to a nil interface (the inputs
of the package's tests). -/
theorem Validate_rejects_non_struct_witness :
    (Value.string (lit "some string")).Kind ≠ Kind.Struct ∧
    Validate (Value.string (lit "some string")) =
      Except.ok (some (error.errorString ErrNotStruct)) ∧
    Validate (Value.other Kind.Map (by decide)) =
      Except.ok (some (error.errorString ErrNotStruct)) ∧
    Validate (Value.pointer (some (Value.other Kind.Interface (by decide)))) =
      Except.ok (some (error.errorString ErrNotStruct)) :=
  ⟨by decide,
   Validate_rejects_non_struct (Value.string (lit "some string")) (by decide),
   Validate_rejects_non_struct (Value.other Kind.Map (by decide)) (by decide),
   Validate_rejects_non_struct (Value.pointer (some (Value.other Kind.Interface (by decide))))
     (by decide)⟩

/-- C4. `Validate` returns nil exactly when the input is a record, no field that
is not exported has a tag, and for every exported field that has a tag the rule
of the tag passes on the value of the field; on every other record it returns a
`ValidationErrors` with an entry. -/
theorem Validate_nil_iff (v : Value) :
    (Validate v = Except.ok none ↔
      v.Kind = Kind.Struct ∧
        (∀ f ∈ v.Fields, f.1.IsExported = false → f.1.validateTag = none) ∧
        (∀ f ∈ v.Fields, f.1.IsExported = true → ∀ valStr, f.1.validateTag = some valStr →
          rulePasses valStr f.2 = true)) ∧
    (v.Kind = Kind.Struct → Validate v ≠ Except.ok none →
      ∃ errs : ValidationErrors, errs ≠ [] ∧
        Validate v = Except.ok (some (error.ValidationErrors errs))) := by
  by_cases hk : v.Kind = Kind.Struct
  · have hv := Kind_eq_Struct v hk
    have hval := Validate_struct v.Fields
    rw [← hv] at hval
    have hpass : (v.Fields.flatMap fieldFailures = [] ↔
        (∀ f ∈ v.Fields, f.1.IsExported = false → f.1.validateTag = none) ∧
        (∀ f ∈ v.Fields, f.1.IsExported = true → ∀ valStr, f.1.validateTag = some valStr →
          rulePasses valStr f.2 = true)) := by
      rw [flatMap_eq_nil]
      constructor
      · intro h
        constructor
        · intro f hf hexp
          have h0 := h f hf
          cases htag : f.1.validateTag with
          | none => rfl
          | some valStr => rw [fieldFailures_unexported f valStr htag hexp] at h0; simp at h0
        · intro f hf hexp valStr htag
          exact (rulePasses_iff f valStr htag hexp).2 (h f hf)
      · intro h f hf
        cases htag : f.1.validateTag with
        | none => exact fieldFailures_untagged f htag
        | some valStr =>
          cases hexp : f.1.IsExported with
          | false => have := h.1 f hf hexp; rw [htag] at this; simp at this
          | true => exact (rulePasses_iff f valStr htag hexp).1 (h.2 f hf hexp valStr htag)
    constructor
    · rw [← hpass, hval]
      by_cases h : v.Fields.flatMap fieldFailures = []
      · simp [h, hk]
      · simp [h]
    · intro _ hne
      by_cases h : v.Fields.flatMap fieldFailures = []
      · rw [hval, if_pos h] at hne; exact absurd rfl hne
      · exact ⟨_, h, by rw [hval, if_neg h]⟩
  · constructor
    · rw [Validate_notStruct v hk]
      simp [hk]
    · intro h; exact absurd h hk

/-- C5. Take an exported field whose tag parses to the rule name "non-empty" and
the arguments `args`. If the number of arguments is not one, or some argument is
not an integer, or is an integer that is zero or negative, then whatever the
value and the kind of the field, the loop body of `Validate` appends exactly
`ErrInvalidValidatorSyntax`, and `Validate` on the record of that one field
returns the list of that one entry. -/
theorem nonEmpty_malformed_arguments (valStr : GoString) (args : List GoString) (field : Value)
    (hsplit : splitArgs valStr = (lit "non-empty", args, ⟨none⟩))
    (hbad : args.length ≠ 1 ∨
      ∃ a ∈ args, integerValue a = none ∨ ∃ n : Int, n ≤ 0 ∧ integerValue a = some n) :
    (∀ errs : ValidationErrors,
      Validate.body errs ⟨true, some valStr⟩ field =
        Except.ok (errs ++ [⟨some ErrInvalidValidatorSyntax⟩])) ∧
    Validate (Value.struct [(⟨true, some valStr⟩, field)]) =
      Except.ok (some (error.ValidationErrors [⟨some ErrInvalidValidatorSyntax⟩])) := by
  have hrule : fromIntArgValidator nonEmpty field args = ⟨some ErrInvalidValidatorSyntax⟩ := by
    by_cases hlen : args.length = 1
    · rcases hbad with hbad | ⟨a, ha, hbad⟩
      · exact absurd hlen hbad
      · obtain ⟨b, hb⟩ := List.length_eq_one.1 hlen
        subst hb
        have hab : a = b := by simpa using ha
        subst hab
        exact nonEmpty_bad_argument a field hbad
    · exact fromIntArgValidator_arity nonEmpty field args hlen
  have hfield : fieldFailures (⟨true, some valStr⟩, field) = [⟨some ErrInvalidValidatorSyntax⟩] := by
    rw [fieldFailures_exported _ valStr rfl rfl, hsplit]
    simp [hrule]
  constructor
  · intro errs
    have hb := body_eq errs (⟨true, some valStr⟩, field)
    rw [hfield] at hb
    exact hb
  · rw [Validate_struct]
    simp [hfield]

/-- Witness of C5: the tag "non-empty:abcdef" of the package's tests, on a field
of kind `Int`. -/
theorem nonEmpty_malformed_arguments_witness :
    (splitArgs (lit "non-empty:abcdef") = (lit "non-empty", [lit "abcdef"], ⟨none⟩) ∧
      integerValue (lit "abcdef") = none) ∧
    (∀ errs : ValidationErrors,
      Validate.body errs ⟨true, some (lit "non-empty:abcdef")⟩ (Value.other Kind.Int (by decide)) =
        Except.ok (errs ++ [⟨some ErrInvalidValidatorSyntax⟩])) ∧
    Validate (Value.struct
        [(⟨true, some (lit "non-empty:abcdef")⟩, Value.other Kind.Int (by decide))]) =
      Except.ok (some (error.ValidationErrors [⟨some ErrInvalidValidatorSyntax⟩])) :=
  ⟨⟨by decide, by decide⟩,
   nonEmpty_malformed_arguments (lit "non-empty:abcdef") [lit "abcdef"]
     (Value.other Kind.Int (by decide)) (by decide)
     (Or.inr ⟨lit "abcdef", by simp, Or.inl (by decide)⟩)⟩

/-- C6. A field that is not exported and has a tag makes the loop body of
`Validate` append exactly `ErrValidateForUnexportedFields`, whatever the tag says
and whatever the value is. When no other field of the record has a tag,
`Validate` returns the list of that one entry, and the message of the list is the
message of `ErrValidateForUnexportedFields`. -/
theorem unexported_tagged_field (valStr : GoString) (field : Value)
    (before after : List (StructField × Value))
    (hbefore : ∀ f ∈ before, f.1.validateTag = none)
    (hafter : ∀ f ∈ after, f.1.validateTag = none) :
    (∀ errs : ValidationErrors,
      Validate.body errs ⟨false, some valStr⟩ field =
        Except.ok (errs ++ [⟨some ErrValidateForUnexportedFields⟩])) ∧
    Validate (Value.struct (before ++ (⟨false, some valStr⟩, field) :: after)) =
      Except.ok (some (error.ValidationErrors [⟨some ErrValidateForUnexportedFields⟩])) ∧
    ValidationErrors.Error [⟨some ErrValidateForUnexportedFields⟩] =
      Except.ok ErrValidateForUnexportedFields.Error ∧
    ErrValidateForUnexportedFields.Error =
      lit "validation for unexported field is not allowed" := by
  have hfield : fieldFailures (⟨false, some valStr⟩, field) =
      [⟨some ErrValidateForUnexportedFields⟩] :=
    fieldFailures_unexported _ valStr rfl rfl
  have h1 : before.flatMap fieldFailures = [] :=
    (flatMap_eq_nil _ _).2 (fun f hf => fieldFailures_untagged f (hbefore f hf))
  have h2 : after.flatMap fieldFailures = [] :=
    (flatMap_eq_nil _ _).2 (fun f hf => fieldFailures_untagged f (hafter f hf))
  refine ⟨?_, ?_, rfl, rfl⟩
  · intro errs
    have hb := body_eq errs (⟨false, some valStr⟩, field)
    rw [hfield] at hb
    exact hb
  · rw [Validate_struct]
    simp [List.flatMap_append, List.flatMap_cons, h1, h2, hfield]

/-- Witness of C6: the record of the package's test, with the one field `foo`
tagged "non-empty:10", and a malformed tag between two fields without tag. -/
theorem unexported_tagged_field_witness :
    Validate (Value.struct [(⟨false, some (lit "non-empty:10")⟩, Value.string (lit ""))]) =
      Except.ok (some (error.ValidationErrors [⟨some ErrValidateForUnexportedFields⟩])) ∧
    Validate (Value.struct
        [(⟨true, none⟩, Value.string (lit "x")),
         (⟨false, some (lit "")⟩, Value.other Kind.Int (by decide)),
         (⟨false, none⟩, Value.string (lit ""))]) =
      Except.ok (some (error.ValidationErrors [⟨some ErrValidateForUnexportedFields⟩])) :=
  ⟨(unexported_tagged_field (lit "non-empty:10") (Value.string (lit "")) [] []
      (by simp) (by simp)).2.1,
   (unexported_tagged_field (lit "") (Value.other Kind.Int (by decide))
      [(⟨true, none⟩, Value.string (lit "x"))] [(⟨false, none⟩, Value.string (lit ""))]
      (by simp) (by simp)).2.1⟩

/-- C7. For every list of failures (entries that each carry a cause),
`ValidationErrors.Error` does not panic. When the list has exactly one entry it
returns the message of that entry with nothing added; otherwise it returns the
concatenation, in the order of the list, of each entry's message followed by a
newline (the empty text for the empty list). -/
theorem ValidationErrors_Error_rendering :
    (∀ c : errorString, ValidationErrors.Error [⟨some c⟩] = Except.ok c.Error) ∧
    (∀ causes : List errorString, causes.length ≠ 1 →
      ValidationErrors.Error (causes.map fun c => ⟨some c⟩) =
        Except.ok (causes.map fun c => c.Error ++ lit "\n").flatten) := by
  constructor
  · intro c
    simp [ValidationErrors.Error, ValidationError.message]
  · intro causes hlen
    have h := ErrorLoop_causes causes (lit "")
    cases causes with
    | nil => simp [ValidationErrors.Error, ValidationErrors.ErrorLoop, lit_empty]
    | cons c rest =>
      cases rest with
      | nil => simp at hlen
      | cons d rest =>
        simp only [List.map_cons] at h ⊢
        simp only [ValidationErrors.Error]
        rw [h]
        simp [lit_empty]

/-- C8. For every rule specification `s`: `splitArgs` fails, with
`ErrInvalidValidatorSyntax`, if and only if `s` has no ':'. Otherwise it returns
no error, the name is the text before the first ':', and the arguments are the
empty list when nothing follows that ':', and else the text after it split at
every ',': the pieces contain no ',', are one more than the commas, and joined
with ',' give the text back unchanged. -/
theorem splitArgs_spec (s : GoString) :
    ((splitArgs s).2.2 = ⟨some ErrInvalidValidatorSyntax⟩ ↔ colon ∉ s) ∧
    ((splitArgs s).2.2.Err ≠ none ↔ colon ∉ s) ∧
    (colon ∈ s →
      ∃ name rest : GoString, s = name ++ colon :: rest ∧ colon ∉ name ∧
        (splitArgs s).2.2 = ⟨none⟩ ∧ (splitArgs s).1 = name ∧
        (rest = [] → (splitArgs s).2.1 = []) ∧
        (rest ≠ [] →
          (splitArgs s).2.1 = Split rest comma ∧
          [comma].intercalate (splitArgs s).2.1 = rest ∧
          (∀ a ∈ (splitArgs s).2.1, comma ∉ a) ∧
          (splitArgs s).2.1.length = Count rest comma + 1)) := by
  by_cases h : colon ∈ s
  · obtain ⟨name, rest, hs, hname⟩ := exists_first_sep s colon h
    have hsa := splitArgs_append name rest hname
    rw [← hs] at hsa
    refine ⟨by simp [hsa, h], by simp [hsa, h], fun _ => ⟨name, rest, hs, hname, ?_, ?_, ?_, ?_⟩⟩
    · rw [hsa]
    · rw [hsa]
    · intro hr; rw [hsa]; simp [hr]
    · intro hr
      have hargs : (splitArgs s).2.1 = Split rest comma := by rw [hsa]; simp [hr]
      obtain ⟨h1, h2, h3⟩ := Split_spec rest comma
      rw [hargs]
      exact ⟨rfl, h1, h2, h3⟩
  · have hsa := splitArgs_of_not_mem s h
    refine ⟨by simp [hsa, h], by simp [hsa, h], fun h' => absurd h' h⟩

/-- C9. For every input, `Validate` does not panic and returns nil, or the
sentinel `ErrNotStruct`, or a `ValidationErrors` that has an entry; it never
returns an empty `ValidationErrors`. -/
theorem Validate_never_returns_empty_list (v : Value) :
    (Validate v = Except.ok none ∨
      Validate v = Except.ok (some (error.errorString ErrNotStruct)) ∨
      ∃ errs : ValidationErrors, 0 < errs.length ∧
        Validate v = Except.ok (some (error.ValidationErrors errs))) ∧
    Validate v ≠ Except.ok (some (error.ValidationErrors [])) := by
  by_cases hk : v.Kind = Kind.Struct
  · have hval := Validate_struct v.Fields
    rw [← Kind_eq_Struct v hk] at hval
    by_cases h : v.Fields.flatMap fieldFailures = []
    · rw [if_pos h] at hval
      exact ⟨Or.inl hval, by rw [hval]; simp⟩
    · rw [if_neg h] at hval
      refine ⟨Or.inr (Or.inr ⟨_, List.length_pos.mpr h, hval⟩), ?_⟩
      rw [hval]
      intro h'
      injection h' with h'
      injection h' with h'
      injection h' with h'
      exact h h'
  · have hval := Validate_notStruct v hk
    exact ⟨Or.inr (Or.inl hval), by rw [hval]; simp⟩

/-- C10. `Validate` returns nil on the record without fields, and on every
record none of whose fields has a tag, whether the fields are exported or not
and whatever their kinds and values are. -/
theorem Validate_untagged_record (fields : List (StructField × Value))
    (h : ∀ f ∈ fields, f.1.validateTag = none) :
    Validate (Value.struct fields) = Except.ok none := by
  have h1 : fields.flatMap fieldFailures = [] :=
    (flatMap_eq_nil _ _).2 (fun f hf => fieldFailures_untagged f (h f hf))
  rw [Validate_struct, if_pos h1]

/-- Witness of C10: the record without fields, and a record of two fields without
tag, one not exported and holding a string, one exported and holding a nil
pointer. -/
theorem Validate_untagged_record_witness :
    Validate (Value.struct []) = Except.ok none ∧
    Validate (Value.struct
      [(⟨false, none⟩, Value.string (lit "")), (⟨true, none⟩, Value.pointer none)]) =
      Except.ok none :=
  ⟨Validate_untagged_record [] (by simp),
   Validate_untagged_record
     [(⟨false, none⟩, Value.string (lit "")), (⟨true, none⟩, Value.pointer none)] (by simp)⟩

/-- C11. A field yields the rule violation (the error "validator non-empty", which
is none of the three exported errors) if and only if it is exported, its tag
parses without error to the rule name "non-empty" and exactly one argument, `Atoi`
reads that argument as a maximum `m ≥ 1`, the value is of kind `String`, and its
count of runes is 0 or more than `m`. This holds for what `Validate` returns on
the record of that one field and for what the loop body appends to any list. -/
theorem ruleViolation_iff (typeField : StructField) (field : Value) :
    (Validate (Value.struct [(typeField, field)]) =
        Except.ok (some (error.ValidationErrors
          [⟨some (errorString.New (lit "validator non-empty"))⟩])) ↔
      typeField.IsExported = true ∧
        ∃ (valStr a : GoString) (m : Int), typeField.validateTag = some valStr ∧
          splitArgs valStr = (lit "non-empty", [a], ⟨none⟩) ∧ Atoi a = some m ∧ 1 ≤ m ∧
          field.Kind = Kind.String ∧
          (RuneCountInString field.String = 0 ∨ m < (RuneCountInString field.String : Int))) ∧
    (∀ errs : ValidationErrors,
      Validate.body errs typeField field =
          Except.ok (errs ++ [⟨some (errorString.New (lit "validator non-empty"))⟩]) ↔
        typeField.IsExported = true ∧
          ∃ (valStr a : GoString) (m : Int), typeField.validateTag = some valStr ∧
            splitArgs valStr = (lit "non-empty", [a], ⟨none⟩) ∧ Atoi a = some m ∧ 1 ≤ m ∧
            field.Kind = Kind.String ∧
            (RuneCountInString field.String = 0 ∨
              m < (RuneCountInString field.String : Int))) ∧
    (errorString.New (lit "validator non-empty") ≠ ErrNotStruct ∧
      errorString.New (lit "validator non-empty") ≠ ErrInvalidValidatorSyntax ∧
      errorString.New (lit "validator non-empty") ≠ ErrValidateForUnexportedFields) := by
  refine ⟨?_, ?_, by simp⟩
  · rw [Validate_single_eq_iff]
    exact fieldFailures_violation_iff typeField field
  · intro errs
    rw [body_eq errs (typeField, field), ← fieldFailures_violation_iff typeField field]
    constructor
    · intro h
      have h1 : errs ++ fieldFailures (typeField, field) =
          errs ++ [⟨some (errorString.New (lit "validator non-empty"))⟩] := by
        injection h
      exact List.append_cancel_left h1
    · intro h
      rw [h]

/-- C12. For every rule name other than "non-empty", `getValidator` returns no
validator and the error `ErrInvalidValidatorSyntax`; and an exported field whose
tag `splitArgs` cuts to such a name makes the loop body of `Validate` append
exactly one entry, `ErrInvalidValidatorSyntax`, whatever the arguments and the
value are, and `Validate` on the record of that one field returns that list. -/
theorem unknown_rule_name (valName : GoString) (h : valName ≠ lit "non-empty") :
    getValidator valName = (none, ⟨some ErrInvalidValidatorSyntax⟩) ∧
    ∀ (valStr : GoString) (field : Value), (splitArgs valStr).1 = valName →
      (∀ errs : ValidationErrors,
        Validate.body errs ⟨true, some valStr⟩ field =
          Except.ok (errs ++ [⟨some ErrInvalidValidatorSyntax⟩])) ∧
      Validate (Value.struct [(⟨true, some valStr⟩, field)]) =
        Except.ok (some (error.ValidationErrors [⟨some ErrInvalidValidatorSyntax⟩])) := by
  refine ⟨getValidator_unknown valName h, fun valStr field hname => ?_⟩
  have hfield : fieldFailures (⟨true, some valStr⟩, field) =
      [⟨some ErrInvalidValidatorSyntax⟩] := by
    rw [fieldFailures_exported _ valStr rfl rfl, hname]
    rcases splitArgs_err valStr with herr | herr
    · simp [herr, h]
    · simp [herr]
  exact ⟨fun errs => body_of_fieldFailures errs _ field _ hfield,
    (Validate_single_eq_iff _ _).2 hfield⟩

/-- Witness of C12: the empty name, a name in another case and a name with a
blank in front, each with the argument 10 on a text that the rule "non-empty"
would accept. -/
theorem unknown_rule_name_witness :
    Validate (Value.struct [(⟨true, some (lit ":10")⟩, Value.string (lit "abc"))]) =
      Except.ok (some (error.ValidationErrors [⟨some ErrInvalidValidatorSyntax⟩])) ∧
    Validate (Value.struct [(⟨true, some (lit "Non-Empty:10")⟩, Value.string (lit "abc"))]) =
      Except.ok (some (error.ValidationErrors [⟨some ErrInvalidValidatorSyntax⟩])) ∧
    Validate (Value.struct [(⟨true, some (lit " non-empty:10")⟩, Value.string (lit "abc"))]) =
      Except.ok (some (error.ValidationErrors [⟨some ErrInvalidValidatorSyntax⟩])) :=
  ⟨((unknown_rule_name (lit "") (by decide)).2 (lit ":10") (Value.string (lit "abc"))
      (by decide)).2,
   ((unknown_rule_name (lit "Non-Empty") (by decide)).2 (lit "Non-Empty:10")
      (Value.string (lit "abc")) (by decide)).2,
   ((unknown_rule_name (lit " non-empty") (by decide)).2 (lit " non-empty:10")
      (Value.string (lit "abc")) (by decide)).2⟩

/-- C13. An exported field whose value is not of kind `String` and whose tag names
the rule "non-empty" makes the loop body of `Validate` append exactly
`ErrInvalidValidatorSyntax`, whatever the arguments are, a well-formed maximum
included; `Validate` on the record of that one field returns that list. -/
theorem nonEmpty_on_non_string (valStr : GoString) (field : Value)
    (hname : (splitArgs valStr).1 = lit "non-empty") (hkind : field.Kind ≠ Kind.String) :
    (∀ errs : ValidationErrors,
      Validate.body errs ⟨true, some valStr⟩ field =
        Except.ok (errs ++ [⟨some ErrInvalidValidatorSyntax⟩])) ∧
    Validate (Value.struct [(⟨true, some valStr⟩, field)]) =
      Except.ok (some (error.ValidationErrors [⟨some ErrInvalidValidatorSyntax⟩])) := by
  have hrule : ∀ args : List GoString,
      fromIntArgValidator nonEmpty field args = ⟨some ErrInvalidValidatorSyntax⟩ := by
    intro args
    by_cases hlen : args.length = 1
    · obtain ⟨a, rfl⟩ := List.length_eq_one.1 hlen
      cases hat : Atoi a with
      | none => simp [fromIntArgValidator, hat]
      | some m => simp [fromIntArgValidator, hat, nonEmpty_not_string field m hkind]
    · exact fromIntArgValidator_arity nonEmpty field args hlen
  have hfield : fieldFailures (⟨true, some valStr⟩, field) =
      [⟨some ErrInvalidValidatorSyntax⟩] := by
    rw [fieldFailures_exported _ valStr rfl rfl, hname]
    rcases splitArgs_err valStr with herr | herr
    · simp [herr, hrule]
    · simp [herr]
  exact ⟨fun errs => body_of_fieldFailures errs _ field _ hfield,
    (Validate_single_eq_iff _ _).2 hfield⟩

/-- Witness of C13: the tag "non-empty:10" on a field of kind `Int`, on one of
kind `Slice` and on a nil pointer. -/
theorem nonEmpty_on_non_string_witness :
    Validate (Value.struct
        [(⟨true, some (lit "non-empty:10")⟩, Value.other Kind.Int (by decide))]) =
      Except.ok (some (error.ValidationErrors [⟨some ErrInvalidValidatorSyntax⟩])) ∧
    Validate (Value.struct
        [(⟨true, some (lit "non-empty:10")⟩, Value.other Kind.Slice (by decide))]) =
      Except.ok (some (error.ValidationErrors [⟨some ErrInvalidValidatorSyntax⟩])) ∧
    Validate (Value.struct [(⟨true, some (lit "non-empty:10")⟩, Value.pointer none)]) =
      Except.ok (some (error.ValidationErrors [⟨some ErrInvalidValidatorSyntax⟩])) :=
  ⟨(nonEmpty_on_non_string (lit "non-empty:10") (Value.other Kind.Int (by decide))
      (by decide) (by decide)).2,
   (nonEmpty_on_non_string (lit "non-empty:10") (Value.other Kind.Slice (by decide))
      (by decide) (by decide)).2,
   (nonEmpty_on_non_string (lit "non-empty:10") (Value.pointer none) (by decide) (by decide)).2⟩

/-- C14, as amended. For every rule specification that `splitArgs` parses without
error, the rule name is the text before the first ':', so it has no ':' in it,
and it is empty exactly when the specification starts with ':'; `getValidator`
then refuses the empty name with `ErrInvalidValidatorSyntax`. The arguments are a
list, empty exactly when nothing follows the first ':'. -/
theorem splitArgs_name (s : GoString) (h : (splitArgs s).2.2.Err = none) :
    (∃ rest : GoString, s = (splitArgs s).1 ++ colon :: rest ∧
      ((splitArgs s).2.1 = [] ↔ rest = [])) ∧
    colon ∉ (splitArgs s).1 ∧
    ((splitArgs s).1 = [] ↔ s.head? = some colon) ∧
    ((splitArgs s).1 = [] →
      getValidator (splitArgs s).1 = (none, ⟨some ErrInvalidValidatorSyntax⟩)) := by
  have hmem : colon ∈ s := by
    by_contra hn
    rw [splitArgs_of_not_mem s hn] at h
    simp at h
  obtain ⟨name, rest, hs, hname⟩ := exists_first_sep s colon hmem
  have hsa := splitArgs_append name rest hname
  rw [← hs] at hsa
  rw [hsa]
  simp only
  refine ⟨⟨rest, hs, ?_⟩, hname, ?_, ?_⟩
  · by_cases hr : rest = []
    · simp [hr]
    · have hlen := (Split_spec rest comma).2.2
      have hne : Split rest comma ≠ [] := by
        intro h0; rw [h0] at hlen; simp at hlen
      simp [hr, hne]
  · rw [hs]
    cases name with
    | nil => simp
    | cons c cs =>
      have hc : c ≠ colon := fun e => hname (by simp [e])
      simp [hc]
  · intro h0
    rw [h0]
    exact getValidator_unknown [] (by decide)

/-- Witness of C14 as amended: the specification ":10", which starts with ':'. -/
theorem splitArgs_name_witness :
    (splitArgs (lit ":10")).2.2.Err = none ∧
    ((splitArgs (lit ":10")).1 = [] ↔ (lit ":10").head? = some colon) ∧
    getValidator (splitArgs (lit ":10")).1 = (none, ⟨some ErrInvalidValidatorSyntax⟩) :=
  ⟨by decide, (splitArgs_name (lit ":10") (by decide)).2.2.1,
   (splitArgs_name (lit ":10") (by decide)).2.2.2 (by decide)⟩

/-- Counterexample to C14 as stated: `splitArgs` parses the specification ":10"
without error, and the rule name it returns is the empty string. -/
theorem splitArgs_empty_name :
    splitArgs (lit ":10") = (lit "", [lit "10"], ⟨none⟩) ∧
    (splitArgs (lit ":10")).2.2.Err = none ∧
    (splitArgs (lit ":10")).1 = lit "" ∧ (lit "" : GoString).length = 0 :=
  ⟨by decide, by decide, by decide, by decide⟩

/-- C15. An exported field whose tag is present and empty is not skipped: the loop
body of `Validate` appends exactly `ErrInvalidValidatorSyntax` for it, and
`Validate` on the record of that one field returns the list of that one entry.
The same field without tag is skipped: the loop body appends nothing and
`Validate` returns nil. -/
theorem empty_tag_not_skipped (field : Value) :
    (∀ errs : ValidationErrors,
      Validate.body errs ⟨true, some (lit "")⟩ field =
        Except.ok (errs ++ [⟨some ErrInvalidValidatorSyntax⟩])) ∧
    Validate (Value.struct [(⟨true, some (lit "")⟩, field)]) =
      Except.ok (some (error.ValidationErrors [⟨some ErrInvalidValidatorSyntax⟩])) ∧
    (∀ errs : ValidationErrors, Validate.body errs ⟨true, none⟩ field = Except.ok errs) ∧
    Validate (Value.struct [(⟨true, none⟩, field)]) = Except.ok none := by
  have hsplit : splitArgs (lit "") = (lit "", [], ⟨some ErrInvalidValidatorSyntax⟩) := by decide
  have hfield : fieldFailures (⟨true, some (lit "")⟩, field) =
      [⟨some ErrInvalidValidatorSyntax⟩] := by
    rw [fieldFailures_exported _ (lit "") rfl rfl, hsplit]
    simp
  have hnone : fieldFailures (⟨true, none⟩, field) = [] := fieldFailures_untagged _ rfl
  refine ⟨fun errs => body_of_fieldFailures errs _ field _ hfield,
    (Validate_single_eq_iff _ _).2 hfield, fun errs => ?_, ?_⟩
  · have hb := body_of_fieldFailures errs ⟨true, none⟩ field [] hnone
    simpa using hb
  · rw [Validate_single, if_pos hnone]

/-- C16. An exported field whose tag contains two ':' or more makes the loop body
of `Validate` append exactly `ErrInvalidValidatorSyntax`, whatever the rule name,
the text around the separators and the value of the field are; `Validate` on the
record of that one field returns the list of that one entry. -/
theorem two_separators_syntax_failure (valStr : GoString) (field : Value)
    (h : 2 ≤ Count valStr colon) :
    (∀ errs : ValidationErrors,
      Validate.body errs ⟨true, some valStr⟩ field =
        Except.ok (errs ++ [⟨some ErrInvalidValidatorSyntax⟩])) ∧
    Validate (Value.struct [(⟨true, some valStr⟩, field)]) =
      Except.ok (some (error.ValidationErrors [⟨some ErrInvalidValidatorSyntax⟩])) := by
  have hfield := fieldFailures_two_colons valStr field h
  exact ⟨fun errs => body_of_fieldFailures errs _ field _ hfield,
    (Validate_single_eq_iff _ _).2 hfield⟩

/-- Witness of C16: the tags "non-empty:1:2" and "non-empty:10:" on the text
"abc", and the tag "::" on a field of kind `Bool`. -/
theorem two_separators_syntax_failure_witness :
    2 ≤ Count (lit "non-empty:1:2") colon ∧
    Validate (Value.struct [(⟨true, some (lit "non-empty:1:2")⟩, Value.string (lit "abc"))]) =
      Except.ok (some (error.ValidationErrors [⟨some ErrInvalidValidatorSyntax⟩])) ∧
    Validate (Value.struct [(⟨true, some (lit "non-empty:10:")⟩, Value.string (lit "abc"))]) =
      Except.ok (some (error.ValidationErrors [⟨some ErrInvalidValidatorSyntax⟩])) ∧
    Validate (Value.struct [(⟨true, some (lit "::")⟩, Value.other Kind.Bool (by decide))]) =
      Except.ok (some (error.ValidationErrors [⟨some ErrInvalidValidatorSyntax⟩])) :=
  ⟨by decide,
   (two_separators_syntax_failure (lit "non-empty:1:2") (Value.string (lit "abc"))
      (by decide)).2,
   (two_separators_syntax_failure (lit "non-empty:10:") (Value.string (lit "abc"))
      (by decide)).2,
   (two_separators_syntax_failure (lit "::") (Value.other Kind.Bool (by decide))
      (by decide)).2⟩

/-- C17. The length that "non-empty" checks is counted in runes, not in bytes. The
text of two characters of two bytes each, U+00E9 twice, has 4 bytes and 2 runes
and passes with the maximum 2. In general the outcome of the rule on a text, and
with it what `Validate` returns for a field holding the text, is the same for two
texts of the same count of runes, whatever the other bytes are; and on the UTF-8
encoding of a sequence of code points the count is the number of code points. -/
theorem nonEmpty_counts_runes :
    (lit "éé" = [0xC3, 0xA9, 0xC3, 0xA9] ∧ (lit "éé").length = 4 ∧
      RuneCountInString (lit "éé") = 2 ∧
      fromIntArgValidator nonEmpty (Value.string (lit "éé")) [lit "2"] = ⟨none⟩ ∧
      Validate (Value.struct [(⟨true, some (lit "non-empty:2")⟩, Value.string (lit "éé"))]) =
        Except.ok none) ∧
    (∀ (s t : GoString) (args : List GoString), RuneCountInString s = RuneCountInString t →
      fromIntArgValidator nonEmpty (Value.string s) args =
        fromIntArgValidator nonEmpty (Value.string t) args) ∧
    (∀ (s t : GoString) (typeField : StructField), RuneCountInString s = RuneCountInString t →
      Validate (Value.struct [(typeField, Value.string s)]) =
        Validate (Value.struct [(typeField, Value.string t)])) ∧
    (∀ cs : List Char, RuneCountInString (cs.flatMap encodeRune) = cs.length) := by
  refine ⟨⟨by decide, by decide, by decide, by decide, by decide⟩, nonEmpty_congr, ?_,
    RuneCountInString_encode⟩
  intro s t typeField h
  rw [Validate_single, Validate_single, fieldFailures_congr typeField s t h]

/-- C18. Validation distributes over the concatenation of field sequences: the
loop of `Validate` on `A ++ B` appends what it produces on `A` from the empty list
and then what it produces on `B` from the empty list, and the list that `Validate`
returns for the record `A ++ B` is the list for the record `A` followed by the
list for the record `B`. -/
theorem Validate_distributes_over_append (A B : List (StructField × Value)) :
    returnedList (Validate (Value.struct (A ++ B))) =
      returnedList (Validate (Value.struct A)) ++ returnedList (Validate (Value.struct B)) ∧
    ∃ ea eb : ValidationErrors,
      Validate.loop A [] = Except.ok ea ∧ Validate.loop B [] = Except.ok eb ∧
      ∀ errs : ValidationErrors, Validate.loop (A ++ B) errs = Except.ok (errs ++ (ea ++ eb)) := by
  constructor
  · simp only [returnedList_struct, List.flatMap_append]
  · refine ⟨A.flatMap fieldFailures, B.flatMap fieldFailures, ?_, ?_, ?_⟩
    · rw [loop_eq]; simp
    · rw [loop_eq]; simp
    · intro errs
      rw [loop_eq, List.flatMap_append]

/-- C19. `splitArgs` loses no text: when it parses `s` without error, `s` is the
rule name, then ':', then the arguments joined with ','; the name has no ':' in
it and no argument has a ','. -/
theorem splitArgs_loses_no_text (s : GoString) (h : (splitArgs s).2.2.Err = none) :
    s = (splitArgs s).1 ++ colon :: [comma].intercalate (splitArgs s).2.1 ∧
    colon ∉ (splitArgs s).1 ∧
    ∀ a ∈ (splitArgs s).2.1, comma ∉ a := by
  have hmem : colon ∈ s := by
    by_contra hn
    rw [splitArgs_of_not_mem s hn] at h
    simp at h
  obtain ⟨name, rest, hs, hname⟩ := exists_first_sep s colon hmem
  have hsa := splitArgs_append name rest hname
  rw [← hs] at hsa
  rw [hsa]
  simp only
  by_cases hr : rest = []
  · subst hr
    refine ⟨?_, hname, ?_⟩
    · simpa [List.intercalate] using hs
    · simp
  · obtain ⟨h1, h2, -⟩ := Split_spec rest comma
    rw [if_neg hr]
    exact ⟨by rw [h1]; exact hs, hname, h2⟩

/-- Witness of C19: the specification "rule:a,,b c" with an empty argument and a
blank. -/
theorem splitArgs_loses_no_text_witness :
    (splitArgs (lit "rule:a,,b c")).2.2.Err = none ∧
    splitArgs (lit "rule:a,,b c") = (lit "rule", [lit "a", lit "", lit "b c"], ⟨none⟩) ∧
    lit "rule:a,,b c" =
      (splitArgs (lit "rule:a,,b c")).1 ++
        colon :: [comma].intercalate (splitArgs (lit "rule:a,,b c")).2.1 :=
  ⟨by decide, by decide, (splitArgs_loses_no_text (lit "rule:a,,b c") (by decide)).1⟩

/-- C20. `Validate` does not follow a pointer: on a pointer to a record it returns
`ErrNotStruct` whatever the fields and tags of the record are, as it does on
every pointer. The result of the record itself has no part in it: the pointer to
the record without fields, on which `Validate` returns nil, and the pointer to a
record on which `Validate` returns a list of failures both give `ErrNotStruct`. -/
theorem Validate_pointer_to_struct :
    (∀ fields : List (StructField × Value),
      Validate (Value.pointer (some (Value.struct fields))) =
        Except.ok (some (error.errorString ErrNotStruct))) ∧
    (∀ elem : Option Value,
      Validate (Value.pointer elem) = Except.ok (some (error.errorString ErrNotStruct))) ∧
    Validate (Value.struct []) = Except.ok none ∧
    Validate (Value.pointer (some (Value.struct []))) =
      Except.ok (some (error.errorString ErrNotStruct)) ∧
    Validate (Value.struct [(⟨true, some (lit "non-empty:10")⟩, Value.string (lit ""))]) =
      Except.ok (some (error.ValidationErrors
        [⟨some (errorString.New (lit "validator non-empty"))⟩])) ∧
    Validate (Value.pointer (some (Value.struct
        [(⟨true, some (lit "non-empty:10")⟩, Value.string (lit ""))]))) =
      Except.ok (some (error.errorString ErrNotStruct)) := by
  have hp : ∀ elem : Option Value,
      Validate (Value.pointer elem) = Except.ok (some (error.errorString ErrNotStruct)) :=
    fun elem => Validate_notStruct (Value.pointer elem) (by simp [Value.Kind])
  exact ⟨fun fields => hp _, hp, by decide, hp _, by decide, hp _⟩

end golidate
